import Mathlib

/-!
Verification development for `@bitofsky/merge-streams`.

The repository merges several independently-sourced chunks of one logical
dataset (CSV, JSON array, or Arrow IPC stream) into a single well-formed
output stream.  The definitions below are shallow embeddings of the
TypeScript sources:

* `src/mergeJson.ts`  — per-character JSON-array scanner and merger;
* `src/mergeCsv.ts` and `readUtf8Lines` of `src/util.ts` — CSV merger;
* `src/mergeArrow.ts` — Arrow record-batch sequencing;
* the `ProgressTracker` of `src/util.ts` is not among the repository files
  available here, so it is modelled from the specification (see its doc
  comment).

JS strings are modelled as Lean `String`/`List Char`; `Buffer.byteLength`
is the UTF-8 byte length; a JS `AbortSignal` is modelled by the index of
the cancellation checkpoint at which it first reads aborted (it is
monotone: once aborted, always aborted).  Each input stream is delivered
as a single chunk.
-/

namespace MergeStreams

/-- Whitespace test of `mergeJson.ts` (`isWhitespaceChar`). -/
def isWhitespaceChar (c : Char) : Bool :=
  c = ' ' || c = '\n' || c = '\r' || c = '\t'

/-- The four error sites of `streamJsonArrayContent` (`mergeJson.ts`). -/
inductive JsonErr where
  /-- `Expected JSON array input` (line 59) -/
  | expectedArray
  /-- `Unexpected data after JSON array end` (line 67) -/
  | unexpectedData
  /-- `Empty input` (line 106) -/
  | emptyInput
  /-- `Unterminated JSON array` (line 107) -/
  | unterminated
  deriving DecidableEq, Repr

/-- The scanner flags of `streamJsonArrayContent` (lines 25-29). -/
structure JsonFlags where
  started : Bool := false
  finished : Bool := false
  depth : Int := 0
  inString : Bool := false
  escape : Bool := false
  deriving DecidableEq, Repr

/-- One character of the scan (`mergeJson.ts` lines 54-98).  Returns the
updated flags together with the characters the source appends to the
pending buffer (each `buffer += ch` becomes an emitted character). -/
def charStep (s : JsonFlags) (ch : Char) : Except JsonErr (JsonFlags × List Char) :=
  if !s.started then
    if isWhitespaceChar ch then .ok (s, [])
    else if ch ≠ '[' then .error .expectedArray
    else .ok ({ s with started := true, depth := 1 }, [])
  else if s.finished then
    if !isWhitespaceChar ch then .error .unexpectedData
    else .ok (s, [])
  else if s.inString then
    if s.escape then .ok ({ s with escape := false }, [ch])
    else if ch = '\\' then .ok ({ s with escape := true }, [ch])
    else if ch = '"' then .ok ({ s with inString := false }, [ch])
    else .ok (s, [ch])
  else
    if ch = '"' then .ok ({ s with inString := true }, [ch])
    else if ch = '[' then .ok ({ s with depth := s.depth + 1 }, [ch])
    else if ch = ']' then
      if s.depth - 1 = 0 then .ok ({ s with depth := s.depth - 1, finished := true }, [])
      else .ok ({ s with depth := s.depth - 1 }, [ch])
    else .ok (s, [ch])

/-- Run the scanner over a list of characters, collecting every character
appended to the buffer (the input's array content). -/
def scanChars (s : JsonFlags) : List Char → Except JsonErr (JsonFlags × List Char)
  | [] => .ok (s, [])
  | c :: cs =>
    match charStep s c with
    | .error e => .error e
    | .ok (s', out) =>
      match scanChars s' cs with
      | .error e => .error e
      | .ok (s'', rest) => .ok (s'', out ++ rest)

/-- UTF-8 byte length of a string (`Buffer.byteLength` in the source). -/
def byteLength (t : String) : Nat := (t.data.map Char.utf8Size).sum

/-- The array content one input contributes between its outer brackets,
or the format error its scan raises: the character loop of
`streamJsonArrayContent` followed by its end-of-input checks
(lines 106-107). -/
def contentOf (t : String) : Except JsonErr String :=
  match scanChars {} t.data with
  | .error e => .error e
  | .ok (s, content) =>
    if !s.started then .error .emptyInput
    else if !s.finished || s.depth ≠ 0 then .error .unterminated
    else .ok (String.mk content)

/-- Contents of a whole input list (fails at the first malformed input). -/
def contentsOf (l : List String) : Except JsonErr (List String) :=
  l.mapM contentOf

/-- First non-whitespace character of an input, if any. -/
def firstNonWs (t : String) : Option Char :=
  (t.data.dropWhile (fun c => isWhitespaceChar c)).head?

/-- State shared by all inputs of one `mergeJson` call: the
`outputHasContent` flag (line 127), everything written to the output sink
so far, and the two byte counters accumulated through
`tracker.addBytes(read, written)`. -/
structure OutCtx where
  outputHasContent : Bool
  written : String
  reads : Nat
  writes : Nat
  deriving DecidableEq, Repr

/-- Per-input state of `streamJsonArrayContent`: scanner flags, the pending
buffer and the `inputHasContent` flag (lines 25-31). -/
structure InputState where
  flags : JsonFlags
  buffer : String
  inputHasContent : Bool
  deriving DecidableEq, Repr

/-- The `flush` closure of `streamJsonArrayContent` (lines 33-46): a no-op on
an empty buffer; otherwise, on the input's first non-empty flush, a leading
comma is written when the output already has content; then the buffer is
written and cleared.  Every write also feeds `tracker.addBytes(0, n)`. -/
def flushBuf (st : InputState) (ctx : OutCtx) : InputState × OutCtx :=
  if st.buffer = "" then (st, ctx)
  else
    let (st, ctx) :=
      if !st.inputHasContent then
        let ctx :=
          if ctx.outputHasContent then
            { ctx with written := ctx.written ++ ",", writes := ctx.writes + 1 }
          else ctx
        ({ st with inputHasContent := true }, { ctx with outputHasContent := true })
      else (st, ctx)
    ({ st with buffer := "" },
     { ctx with written := ctx.written ++ st.buffer,
                writes := ctx.writes + byteLength st.buffer })

/-- One character of the loop body (lines 54-103): scan the character, append
its emission to the pending buffer, and flush once the buffer reaches
64 KiB. -/
def stepFlush (st : InputState) (ctx : OutCtx) (c : Char) :
    Except JsonErr (InputState × OutCtx) :=
  match charStep st.flags c with
  | .error e => .error e
  | .ok (f', out) =>
    let st := { st with flags := f', buffer := st.buffer ++ String.mk out }
    if 64 * 1024 ≤ st.buffer.length then .ok (flushBuf st ctx)
    else .ok (st, ctx)

/-- The character loop of `streamJsonArrayContent`; on a format error the
output written so far is kept as-is (the exception propagates past the
sink untouched). -/
def processChars : InputState → OutCtx → List Char → InputState × OutCtx × Option JsonErr
  | st, ctx, [] => (st, ctx, none)
  | st, ctx, c :: cs =>
    match stepFlush st ctx c with
    | .error e => (st, ctx, some e)
    | .ok (st', ctx') => processChars st' ctx' cs

/-- `streamJsonArrayContent` (lines 16-111) on one input delivered as a
single chunk: count the chunk's bytes read, run the character loop, apply
the end-of-input checks and the final flush. -/
def streamJsonArrayContent (ctx : OutCtx) (t : String) : OutCtx × Option JsonErr :=
  let ctx := { ctx with reads := ctx.reads + byteLength t }
  match processChars ⟨{}, "", false⟩ ctx t.data with
  | (_, ctx, some e) => (ctx, some e)
  | (st, ctx, none) =>
    if !st.flags.started then (ctx, some .emptyInput)
    else if !st.flags.finished || st.flags.depth ≠ 0 then (ctx, some .unterminated)
    else
      let (_, ctx) := flushBuf st ctx
      (ctx, none)

/-- Errors a `mergeJson` call can reject with. -/
inductive MergeErr where
  /-- `throwIfAborted`: `[mergeJson] Aborted` -/
  | aborted
  /-- `assertNonEmptyArray`: inputs must be a non-empty array -/
  | invalidInputs
  /-- a format error of one input's scan -/
  | json (e : JsonErr)
  deriving DecidableEq, Repr

/-- The `AbortSignal`, modelled by the checkpoint index at which it first
reads aborted (`none`: it never fires).  A signal is monotone, so it reads
aborted at every later checkpoint as well. -/
def abortedAt (fireAt : Option Nat) (step : Nat) : Bool :=
  match fireAt with
  | none => false
  | some f => f ≤ step

/-- Result of the input loop: shared output state, number of cancellation
checkpoints evaluated, indices of the inputs resolved, and the error if
the loop threw. -/
structure LoopRes where
  ctx : OutCtx
  steps : Nat
  resolved : List Nat
  error : Option MergeErr
  deriving DecidableEq, Repr

/-- The input loop of `mergeJson` (lines 131-138).  Checkpoints, in source
order: `throwIfAborted` at the top of the loop (line 132), then — after
`resolveInputStream` obtains the input's stream — the `throwIfAborted`
that guards the input's (single) chunk (line 49). -/
def mergeJsonLoop (fireAt : Option Nat) :
    List (Nat × String) → OutCtx → Nat → List Nat → LoopRes
  | [], ctx, step, resolved => ⟨ctx, step, resolved, none⟩
  | (i, t) :: rest, ctx, step, resolved =>
    if abortedAt fireAt step then ⟨ctx, step + 1, resolved, some .aborted⟩
    else
      let resolved := resolved ++ [i]
      if abortedAt fireAt (step + 1) then ⟨ctx, step + 2, resolved, some .aborted⟩
      else
        match streamJsonArrayContent ctx t with
        | (ctx, some e) => ⟨ctx, step + 2, resolved, some (.json e)⟩
        | (ctx, none) => mergeJsonLoop fireAt rest ctx (step + 2) resolved

/-- Observable outcome of one `mergeJson` call. -/
structure MergeRun where
  output : String
  reads : Nat
  writes : Nat
  resolved : List Nat
  steps : Nat
  error : Option MergeErr
  deriving DecidableEq, Repr

/-- `mergeJson` (lines 122-144): assert the input list non-empty, write the
opening `[` (before any signal check or input resolution), run the input
loop, and on success write the closing `]`. -/
def mergeJson (fireAt : Option Nat) (inputs : List String) : MergeRun :=
  if inputs = [] then ⟨"", 0, 0, [], 0, some .invalidInputs⟩
  else
    let ctx : OutCtx := ⟨false, "[", 0, 1⟩
    let r := mergeJsonLoop fireAt inputs.enum ctx 0 []
    match r.error with
    | some e => ⟨r.ctx.written, r.ctx.reads, r.ctx.writes, r.resolved, r.steps, some e⟩
    | none =>
      ⟨r.ctx.written ++ "]", r.ctx.reads, r.ctx.writes + 1, r.resolved, r.steps, none⟩

/-- Shared-output state after one input whose raw text is `t` and whose
content is `delivered`, starting from flag `hc`, written prefix `base` and
counters `r`/`w`: the leading comma appears exactly when the output already
had content and this input contributes something. -/
def ctxAfter (hc : Bool) (base : String) (r w : Nat) (delivered : String) : OutCtx :=
  { outputHasContent := hc || delivered ≠ ""
    written := base ++ (if hc ∧ delivered ≠ "" then "," else "") ++ delivered
    reads := r
    writes := w + (if hc ∧ delivered ≠ "" then 1 else 0) + byteLength delivered }

/-- Fold `ctxAfter` over an input list paired with its contents. -/
def ctxFold : OutCtx → List (String × String) → OutCtx
  | ctx, [] => ctx
  | ctx, (t, c) :: rest =>
    ctxFold (ctxAfter ctx.outputHasContent ctx.written (ctx.reads + byteLength t)
      ctx.writes c) rest

/-- The merged array body contributed by contents `cs` when the output flag
starts at `hc`: each non-empty content is preceded by a comma exactly when
content was already emitted. -/
def bodyFrom (hc : Bool) : List String → String
  | [] => ""
  | c :: cs =>
    (if hc ∧ c ≠ "" then "," ++ c else c) ++ bodyFrom (hc || c ≠ "") cs

/-- Flag of `finished` after scanning the first `m` characters of `t`
(false when that prefix does not even scan). -/
def finishedAfter (t : String) (m : Nat) : Bool :=
  match scanChars {} (t.data.take m) with
  | .ok (s, _) => s.finished
  | .error _ => false

/-- A non-whitespace character follows the closing bracket of the input's
array: at some position the scan has already closed the outer array and the
character there is not whitespace. -/
def trailingGarbage (t : String) : Prop :=
  ∃ m c, t.data.get? m = some c ∧ finishedAfter t m = true ∧ isWhitespaceChar c = false

/-- The input ends with the outer array opened but its bracket nesting not
balanced back to zero. -/
def unterminatedEnd (t : String) : Prop :=
  ∃ s content, scanChars {} t.data = .ok (s, content) ∧ s.started = true ∧ s.depth ≠ 0

/-! ## CSV (`src/mergeCsv.ts`, `readUtf8Lines` of `src/util.ts`) -/

/-- `if (line.endsWith('\r')) line = line.slice(0, -1)` (util.ts). -/
def dropTrailingCr (l : List Char) : List Char :=
  if l.getLast? = some '\r' then l.dropLast else l

/-- Line splitting of `readUtf8Lines` (util.ts lines 83-105): split the
carried characters at each `\n`, trimming one trailing `\r` per line; a
non-terminated trailing partial line is yielded when non-empty. -/
def splitLinesAux : List Char → List Char → List (List Char)
  | carry, [] => if carry.isEmpty then [] else [dropTrailingCr carry]
  | carry, c :: rest =>
    if c = '\n' then dropTrailingCr carry :: splitLinesAux [] rest
    else splitLinesAux (carry ++ [c]) rest

/-- `readUtf8Lines` on a whole input. -/
def readUtf8Lines (t : String) : List String :=
  (splitLinesAux [] t.data).map String.mk

/-- State of one `mergeCsv` call: the canonical first line, everything
written to the output, and the tracker's byte counters. -/
structure CsvState where
  firstLine : Option String
  output : String
  reads : Nat
  writes : Nat
  deriving DecidableEq, Repr

/-- Body of the `mergeCsv` input loop for input number `idx`
(mergeCsv.ts lines 33-62): pipe the input through the byte counter, split
it into lines; the first input's first line becomes the canonical header
and is written; a later input's first line is skipped exactly when it
equals the canonical header; every other line is written with a normalized
trailing newline. -/
def csvConsume (idx : Nat) (st : CsvState) (t : String) : CsvState :=
  let st := { st with reads := st.reads + byteLength t }
  match readUtf8Lines t with
  | [] => st
  | head :: rest =>
    let st :=
      if idx = 0 then
        { st with firstLine := some head,
                  output := st.output ++ (head ++ "\n"),
                  writes := st.writes + byteLength (head ++ "\n") }
      else
        let shouldWrite :=
          match st.firstLine with
          | none => true
          | some h₀ => head ≠ h₀
        if shouldWrite then
          { st with output := st.output ++ (head ++ "\n"),
                    writes := st.writes + byteLength (head ++ "\n") }
        else st
    rest.foldl
      (fun st line =>
        { st with output := st.output ++ (line ++ "\n"),
                  writes := st.writes + byteLength (line ++ "\n") })
      st

/-- `mergeCsv` (lines 22-67) over its ordered input list. -/
def mergeCsv (inputs : List String) : CsvState :=
  inputs.enum.foldl (fun st p => csvConsume p.1 st p.2) ⟨none, "", 0, 0⟩

/-- Lines joined with one normalized `\n` after each. -/
def lineJoin (ls : List String) : String :=
  String.join (ls.map (fun l => l ++ "\n"))

/-- Drop a later input's first line exactly when it equals the canonical
header. -/
def dedupTail (h₀ : String) : List String → List String
  | [] => []
  | h :: tl => if h = h₀ then tl else h :: tl

/-- The canonical header as claim C6 words it: the first NON-EMPTY line of
the first input. -/
def csvClaimHeader (t : String) : Option String :=
  (readUtf8Lines t).find? (fun l => l ≠ "")

/-- The C6 reading of the input loop: identical to `csvConsume` except that
the canonical header kept from the first input is its first non-empty
line. -/
def csvConsumeClaim6 (idx : Nat) (st : CsvState) (t : String) : CsvState :=
  let st := { st with reads := st.reads + byteLength t }
  match readUtf8Lines t with
  | [] => st
  | head :: rest =>
    let st :=
      if idx = 0 then
        { st with firstLine := csvClaimHeader t,
                  output := st.output ++ (head ++ "\n"),
                  writes := st.writes + byteLength (head ++ "\n") }
      else
        let shouldWrite :=
          match st.firstLine with
          | none => true
          | some h₀ => head ≠ h₀
        if shouldWrite then
          { st with output := st.output ++ (head ++ "\n"),
                    writes := st.writes + byteLength (head ++ "\n") }
        else st
    rest.foldl
      (fun st line =>
        { st with output := st.output ++ (line ++ "\n"),
                  writes := st.writes + byteLength (line ++ "\n") })
      st

/-- `mergeCsv` under claim C6's reading of the canonical header. -/
def mergeCsvClaim6 (inputs : List String) : CsvState :=
  inputs.enum.foldl (fun st p => csvConsumeClaim6 p.1 st p.2) ⟨none, "", 0, 0⟩

/-! ## Arrow (`src/mergeArrow.ts`)

Record batches are opaque to the engine; here a batch is represented by its
row count (`batch.numRows`).  The columnar codec itself is an external
collaborator; its encode side is modelled from the spec (see
`encodeClosed`). -/

/-- Messages of the Arrow IPC stream framing. -/
inductive ArrowMsg where
  /-- schema message opening the stream -/
  | schema
  /-- one record batch carrying its row count -/
  | recordBatch (rows : Nat)
  /-- the end-of-stream marker -/
  | eos
  deriving DecidableEq, Repr

/-- What happens to the single `RecordBatchStreamWriter` session. -/
inductive SessionEvent where
  /-- the writer is constructed and its node stream piped to the output -/
  | opened
  /-- one decoded batch is forwarded unmodified into the session -/
  | wrote (rows : Nat)
  /-- `writeAll` completes and closes the session -/
  | closed
  /-- `writer.abort(e)` -/
  | aborted
  deriving DecidableEq, Repr

/-- Modelled from the spec: the columnar codec's encode contract — `encode
(lazy batch sequence) → byte stream`, "a self-framing format with
schema/record-batch messages and exactly one end-of-stream marker per
encode session" (§6).  Closing one session after writing batches `bs`
yields a schema message, the batches in order, and a single end-of-stream
marker. -/
def encodeClosed (bs : List Nat) : List ArrowMsg :=
  ArrowMsg.schema :: (bs.map ArrowMsg.recordBatch ++ [ArrowMsg.eos])

/-- The batches the `batches()` generator yields before hitting the first
decode failure: each input's decoded batch list, in input order. -/
def yieldedBatches : List (Except String (List Nat)) → List Nat
  | [] => []
  | .error _ :: _ => []
  | .ok bs :: rest => bs ++ yieldedBatches rest

/-- The first decode failure among the inputs, if any. -/
def firstDecodeErr : List (Except String (List Nat)) → Option String
  | [] => none
  | .error e :: _ => some e
  | .ok _ :: rest => firstDecodeErr rest

/-- `mergeArrow` (mergeArrow.ts lines 83-140): one writer session is opened
before the first input; the `batches()` generator decodes each input in
order and forwards every batch unmodified; `writer.writeAll` closes the
session after the last batch.  A decode failure makes `writeAll` throw:
its catch aborts the writer, and the outer catch aborts it again.  A
failure of the encode/pipe path (`pipeline(encoded, counter, output)`)
fails `Promise.all`, whose catch aborts the writer. -/
def mergeArrowRun (inputs : List (Except String (List Nat)))
    (sinkErr : Option String) : List SessionEvent × Except String (List ArrowMsg) :=
  match firstDecodeErr inputs with
  | some e =>
    (SessionEvent.opened ::
      ((yieldedBatches inputs).map SessionEvent.wrote ++
        [SessionEvent.aborted, SessionEvent.aborted]),
     .error e)
  | none =>
    let bs := yieldedBatches inputs
    match sinkErr with
    | some e =>
      (SessionEvent.opened ::
        (bs.map SessionEvent.wrote ++ [SessionEvent.closed, SessionEvent.aborted]),
       .error e)
    | none =>
      (SessionEvent.opened :: (bs.map SessionEvent.wrote ++ [SessionEvent.closed]),
       .ok (encodeClosed bs))

/-- Total rows decoded from a merged stream. -/
def totalRows (msgs : List ArrowMsg) : Nat :=
  (msgs.map (fun m => match m with | .recordBatch n => n | _ => 0)).sum

/-- Count of end-of-stream markers in a stream. -/
def eosCount (msgs : List ArrowMsg) : Nat :=
  msgs.count ArrowMsg.eos

/-! ## Progress tracker

The `ProgressTracker` class lives in `src/util.ts`, which is not among the
repository files available here (the `util.ts` included predates it); it is
modelled from the spec. -/

/-- The snapshot handed to the progress callback (`types.ts`,
`MergeOptionsProgress`). -/
structure ProgressSnapshot where
  inputIndex : Nat
  totalInputs : Nat
  inputedBytes : Nat
  mergedBytes : Nat
  deriving DecidableEq, Repr

/-- Modelled from the spec: the `ProgressTracker`'s state — "two monotonic
counters (bytes read, bytes written), the currently/most-recently active
input index, and the total input count" plus the last emission time used
for throttling (§4.7, §9). -/
structure TrackerState where
  inputIndex : Nat
  totalInputs : Nat
  inputedBytes : Nat
  mergedBytes : Nat
  lastEmitAt : Option Nat
  deriving DecidableEq, Repr

/-- Snapshot of the tracker's current counters. -/
def snapOf (tr : TrackerState) : ProgressSnapshot :=
  ⟨tr.inputIndex, tr.totalInputs, tr.inputedBytes, tr.mergedBytes⟩

/-- Modelled from the spec: `tracker.addBytes(r, w)` at time `now` —
accumulate both counters, then emit the callback only when unthrottled
(`interval = 0` per types.ts) or at least one throttle interval has passed
since the last emission ("at most once per throttle interval", §4.7). -/
def trackerAdd (interval : Nat) (tr : TrackerState) (r w now : Nat) :
    TrackerState × Option (Nat × ProgressSnapshot) :=
  let tr := { tr with inputedBytes := tr.inputedBytes + r,
                      mergedBytes := tr.mergedBytes + w }
  let due :=
    interval = 0 ||
      match tr.lastEmitAt with
      | none => true
      | some t => decide (t + interval ≤ now)
  if due then ({ tr with lastEmitAt := some now }, some (now, snapOf tr))
  else (tr, none)

/-- One tracker interaction of a merge call. -/
inductive TrackerOp where
  /-- `tracker.addBytes(r, w)` observed at time `now` -/
  | add (r w now : Nat)
  /-- `tracker.nextInput()` -/
  | next
  deriving DecidableEq, Repr

/-- Run the tracker over the interactions of one merge call, collecting the
throttled emissions with their times. -/
def runTracker (interval : Nat) (tr : TrackerState) :
    List TrackerOp → TrackerState × List (Nat × ProgressSnapshot)
  | [] => (tr, [])
  | .next :: ops =>
    runTracker interval { tr with inputIndex := tr.inputIndex + 1 } ops
  | .add r w now :: ops =>
    let (tr', em) := trackerAdd interval tr r w now
    let (trF, rest) := runTracker interval tr' ops
    (trF, em.toList ++ rest)

/-- Modelled from the spec: `tracker.flush()` — the one unconditional final
emission at merge completion ("plus unconditionally once more at merge
completion", §4.7). -/
def trackerFlush (tr : TrackerState) : ProgressSnapshot := snapOf tr

/-- Bytes-read total a list of tracker interactions accumulates. -/
def opsReads : List TrackerOp → Nat
  | [] => 0
  | .add r _ _ :: ops => r + opsReads ops
  | .next :: ops => opsReads ops

/-- Bytes-written total a list of tracker interactions accumulates. -/
def opsWrites : List TrackerOp → Nat
  | [] => 0
  | .add _ w _ :: ops => w + opsWrites ops
  | .next :: ops => opsWrites ops

/-- The tracker a merge call starts with: both counters at zero, the first
input active, no emission yet. -/
def trackerInit (tot : Nat) : TrackerState := ⟨0, tot, 0, 0, none⟩

/-- Counter ordering between two progress snapshots: both byte counters
non-decreasing. -/
def snapLE (a b : ProgressSnapshot) : Prop :=
  a.inputedBytes ≤ b.inputedBytes ∧ a.mergedBytes ≤ b.mergedBytes

/-! ## Proof-side definitions -/

/-- Invariant of every scanner state reachable from the initial state:
the escape flag lives inside strings only, nothing happens before the
opening bracket, a finished scan has returned to depth 0, and an open
array keeps positive depth. -/
def GoodFlags (s : JsonFlags) : Prop :=
  (s.escape = true → s.inString = true) ∧
  (s.started = false → s = {}) ∧
  (s.finished = true → s.started = true ∧ s.depth = 0) ∧
  (s.started = true → s.finished = false → 1 ≤ s.depth)

/-- Helper: contents each preceded by a comma, concatenated. -/
def commaJoin : List String → String
  | [] => ""
  | c :: cs => "," ++ c ++ commaJoin cs

/-! ## Basic lemmas -/

theorem byteLength_append (s t : String) :
    byteLength (s ++ t) = byteLength s + byteLength t := by
  simp [byteLength, String.data_append]

theorem string_mk_append (a b : List Char) :
    String.mk (a ++ b) = String.mk a ++ String.mk b := rfl

theorem string_mk_eq_empty (l : List Char) : String.mk l = "" ↔ l = [] := by
  constructor
  · intro h
    exact congrArg String.data h
  · intro h
    rw [h]

/-! ## Scanner case lemmas -/

theorem charStep_ws_of_notStarted {s : JsonFlags} {c : Char}
    (hs : s.started = false) (hw : isWhitespaceChar c = true) :
    charStep s c = .ok (s, []) := by
  simp [charStep, hs, hw]

theorem charStep_open_of_notStarted {s : JsonFlags} {c : Char}
    (hs : s.started = false) (hc : c = '[') :
    charStep s c = .ok ({ s with started := true, depth := 1 }, []) := by
  subst hc
  simp [charStep, hs, isWhitespaceChar]

theorem charStep_err_of_notStarted {s : JsonFlags} {c : Char}
    (hs : s.started = false) (hw : isWhitespaceChar c = false) (hc : c ≠ '[') :
    charStep s c = .error .expectedArray := by
  simp [charStep, hs, hw, hc]

theorem charStep_ws_of_finished {s : JsonFlags} {c : Char}
    (hs : s.started = true) (hf : s.finished = true) (hw : isWhitespaceChar c = true) :
    charStep s c = .ok (s, []) := by
  simp [charStep, hs, hf, hw]

theorem charStep_err_of_finished {s : JsonFlags} {c : Char}
    (hs : s.started = true) (hf : s.finished = true) (hw : isWhitespaceChar c = false) :
    charStep s c = .error .unexpectedData := by
  simp [charStep, hs, hf, hw]

theorem charStep_started_mono {s : JsonFlags} {c : Char} {s' : JsonFlags} {out : List Char}
    (h : charStep s c = .ok (s', out)) (hs : s.started = true) : s'.started = true := by
  unfold charStep at h
  repeat' split at h
  all_goals try (obtain ⟨rfl, rfl⟩ := h)
  all_goals simp_all

theorem charStep_finished_frozen {s : JsonFlags} {c : Char} {s' : JsonFlags} {out : List Char}
    (h : charStep s c = .ok (s', out)) (hs : s.started = true) (hf : s.finished = true) :
    s' = s ∧ out = [] := by
  unfold charStep at h
  repeat' split at h
  all_goals try (obtain ⟨rfl, rfl⟩ := h)
  all_goals simp_all

theorem charStep_good {s : JsonFlags} {c : Char} {s' : JsonFlags} {out : List Char}
    (h : charStep s c = .ok (s', out)) (hg : GoodFlags s) : GoodFlags s' := by
  obtain ⟨g1, g2, g3, g4⟩ := hg
  unfold charStep at h
  repeat' split at h
  all_goals try (obtain ⟨rfl, rfl⟩ := h)
  all_goals unfold GoodFlags
  all_goals refine ⟨?_, ?_, ?_, ?_⟩ <;> intros <;>
    (try have hdep : 1 ≤ s.depth := g4 (by assumption) (by assumption)) <;>
    first | rfl | omega | (simp_all; omega) | simp_all

theorem charStep_inString_keeps_depth {s : JsonFlags} {c : Char} {s' : JsonFlags}
    {out : List Char} (h : charStep s c = .ok (s', out)) (hs : s.started = true)
    (hin : s.inString = true) : s'.depth = s.depth := by
  unfold charStep at h
  repeat' split at h
  all_goals try (obtain ⟨rfl, rfl⟩ := h)
  all_goals simp_all

theorem charStep_escaped_stays_inString {s : JsonFlags} {c : Char} {s' : JsonFlags}
    {out : List Char} (h : charStep s c = .ok (s', out)) (hs : s.started = true)
    (hf : s.finished = false) (hin : s.inString = true) (he : s.escape = true) :
    s'.inString = true := by
  unfold charStep at h
  repeat' split at h
  all_goals try (obtain ⟨rfl, rfl⟩ := h)
  all_goals simp_all

theorem charStep_err_of_started {s : JsonFlags} {c : Char} {e : JsonErr}
    (h : charStep s c = .error e) (hs : s.started = true) : e = .unexpectedData := by
  unfold charStep at h
  repeat' split at h
  all_goals simp_all

/-! ## Scan-level lemmas -/

theorem goodFlags_init : GoodFlags {} := by
  refine ⟨?_, ?_, ?_, ?_⟩ <;> intros <;> simp_all

theorem scanChars_cons_ok {s : JsonFlags} {c : Char} {s1 : JsonFlags} {out1 : List Char}
    (cs : List Char) (hc : charStep s c = .ok (s1, out1)) :
    scanChars s (c :: cs) =
      match scanChars s1 cs with
      | .error e => .error e
      | .ok (s2, rest) => .ok (s2, out1 ++ rest) := by
  rw [scanChars, hc]

theorem scanChars_cons_err {s : JsonFlags} {c : Char} {e : JsonErr}
    (cs : List Char) (hc : charStep s c = .error e) :
    scanChars s (c :: cs) = .error e := by
  rw [scanChars, hc]

theorem scanChars_cons_ok_nil {s : JsonFlags} {c : Char} {s1 : JsonFlags}
    (cs : List Char) (hc : charStep s c = .ok (s1, [])) :
    scanChars s (c :: cs) = scanChars s1 cs := by
  rw [scanChars_cons_ok cs hc]
  cases h2 : scanChars s1 cs with
  | error e => rfl
  | ok q => obtain ⟨s2, out2⟩ := q; simp

theorem scanChars_append (as bs : List Char) (s : JsonFlags) :
    scanChars s (as ++ bs) =
      match scanChars s as with
      | .error e => .error e
      | .ok (s', out) =>
        match scanChars s' bs with
        | .error e => .error e
        | .ok (s'', out') => .ok (s'', out ++ out') := by
  induction as generalizing s with
  | nil =>
    cases h : scanChars s bs with
    | error e => simp [scanChars, h]
    | ok p => obtain ⟨s'', out'⟩ := p; simp [scanChars, h]
  | cons c cs ih =>
    show scanChars s (c :: (cs ++ bs)) = _
    cases hc : charStep s c with
    | error e => rw [scanChars_cons_err _ hc, scanChars_cons_err _ hc]
    | ok p =>
      obtain ⟨s1, out1⟩ := p
      rw [scanChars_cons_ok _ hc, scanChars_cons_ok _ hc, ih s1]
      cases h2 : scanChars s1 cs with
      | error e => rfl
      | ok q =>
        obtain ⟨s2, out2⟩ := q
        cases h3 : scanChars s2 bs with
        | error e => simp [h3]
        | ok r => obtain ⟨s3, out3⟩ := r; simp [h3]

theorem scanChars_good {cs : List Char} {s s' : JsonFlags} {out : List Char}
    (h : scanChars s cs = .ok (s', out)) (hg : GoodFlags s) : GoodFlags s' := by
  induction cs generalizing s out with
  | nil =>
    rw [scanChars] at h
    obtain ⟨rfl, rfl⟩ : s = s' ∧ [] = out := by simpa using h
    exact hg
  | cons c cs ih =>
    rw [scanChars] at h
    split at h
    · exact absurd h (by simp)
    case _ s1 out1 heq =>
      split at h
      · exact absurd h (by simp)
      case _ s2 out2 heq2 =>
        obtain ⟨h1, h2⟩ : s2 = s' ∧ out1 ++ out2 = out := by simpa using h
        subst h1
        exact ih heq2 (charStep_good heq hg)

theorem scanChars_started_mono {cs : List Char} {s s' : JsonFlags} {out : List Char}
    (h : scanChars s cs = .ok (s', out)) (hs : s.started = true) : s'.started = true := by
  induction cs generalizing s out with
  | nil =>
    rw [scanChars] at h
    obtain ⟨rfl, rfl⟩ : s = s' ∧ [] = out := by simpa using h
    exact hs
  | cons c cs ih =>
    rw [scanChars] at h
    split at h
    · exact absurd h (by simp)
    case _ s1 out1 heq =>
      split at h
      · exact absurd h (by simp)
      case _ s2 out2 heq2 =>
        obtain ⟨h1, h2⟩ : s2 = s' ∧ out1 ++ out2 = out := by simpa using h
        subst h1
        exact ih heq2 (charStep_started_mono heq hs)

theorem scanChars_finished_frozen {cs : List Char} {s s' : JsonFlags} {out : List Char}
    (h : scanChars s cs = .ok (s', out)) (hs : s.started = true) (hf : s.finished = true) :
    s' = s ∧ out = [] := by
  induction cs generalizing s out with
  | nil =>
    rw [scanChars] at h
    obtain ⟨rfl, rfl⟩ : s = s' ∧ [] = out := by simpa using h
    exact ⟨rfl, rfl⟩
  | cons c cs ih =>
    rw [scanChars] at h
    split at h
    · exact absurd h (by simp)
    case _ s1 out1 heq =>
      split at h
      · exact absurd h (by simp)
      case _ s2 out2 heq2 =>
        obtain ⟨h1, h2⟩ : s2 = s' ∧ out1 ++ out2 = out := by simpa using h
        subst h1
        obtain ⟨rfl, rfl⟩ := charStep_finished_frozen heq hs hf
        obtain ⟨rfl, rfl⟩ := ih heq2 hs hf
        simp_all

theorem scanChars_no_expectedArray {cs : List Char} {s : JsonFlags}
    (hs : s.started = true) :
    scanChars s cs ≠ .error .expectedArray := by
  induction cs generalizing s with
  | nil => rw [scanChars]; simp
  | cons c cs ih =>
    cases hc : charStep s c with
    | error e =>
      rw [scanChars_cons_err _ hc]
      have := charStep_err_of_started hc hs
      simp [this]
    | ok p =>
      obtain ⟨s1, out1⟩ := p
      rw [scanChars_cons_ok _ hc]
      have hs1 := charStep_started_mono hc hs
      cases h2 : scanChars s1 cs with
      | error e =>
        have := ih hs1
        rw [h2] at this
        simpa using fun hcon => this (by rw [hcon])
      | ok q => obtain ⟨s2, out2⟩ := q; simp

theorem scan_init_allWs {cs : List Char}
    (h : cs.dropWhile (fun c => isWhitespaceChar c) = []) :
    scanChars {} cs = .ok ({}, []) := by
  induction cs with
  | nil => rfl
  | cons c cs ih =>
    rw [List.dropWhile_cons] at h
    split at h
    case _ hw =>
      rw [scanChars_cons_ok_nil _ (charStep_ws_of_notStarted rfl (by simpa using hw))]
      exact ih h
    case _ hw => exact absurd h (by simp)

theorem scan_init_badHead {cs ds : List Char} {c : Char}
    (h : cs.dropWhile (fun c => isWhitespaceChar c) = c :: ds) (hc : c ≠ '[') :
    scanChars {} cs = .error .expectedArray := by
  induction cs with
  | nil => simp at h
  | cons a cs ih =>
    rw [List.dropWhile_cons] at h
    split at h
    case _ hw =>
      rw [scanChars_cons_ok_nil _ (charStep_ws_of_notStarted rfl (by simpa using hw))]
      exact ih h
    case _ hw =>
      obtain ⟨rfl, rfl⟩ : a = c ∧ cs = ds := by simpa using h
      exact scanChars_cons_err _
        (charStep_err_of_notStarted rfl (by simpa using hw) hc)

theorem scan_init_open {cs ds : List Char}
    (h : cs.dropWhile (fun c => isWhitespaceChar c) = '[' :: ds) :
    scanChars {} cs = scanChars { started := true, depth := 1 } ds := by
  induction cs with
  | nil => simp at h
  | cons a cs ih =>
    rw [List.dropWhile_cons] at h
    split at h
    case _ hw =>
      rw [scanChars_cons_ok_nil _ (charStep_ws_of_notStarted rfl (by simpa using hw))]
      exact ih h
    case _ hw =>
      have ha : a = '[' ∧ cs = ds := by simpa using h
      rw [ha.1, ha.2]
      exact scanChars_cons_ok_nil _ (charStep_open_of_notStarted rfl rfl)

/-! ## Flush-layer simulation: the streamed writes concatenate to the pure
scan's content, with the comma emitted exactly on the first delivery. -/

theorem string_mk_data (s : String) : String.mk s.data = s := by
  cases s
  rfl

theorem byteLength_nil : byteLength "" = 0 := rfl

theorem string_append_ne_empty_iff (a b : String) :
    (a ++ b ≠ "") ↔ (a ≠ "" ∨ b ≠ "") := by
  constructor
  · intro h
    by_contra hc
    push_neg at hc
    rw [hc.1, hc.2] at h
    exact h rfl
  · intro h hc
    have : a.data ++ b.data = [] := by
      have := congrArg String.data hc
      rw [String.data_append] at this
      exact this
    rcases List.append_eq_nil.mp this with ⟨ha, hb⟩
    rcases h with h | h
    · exact h (by rw [← string_mk_data a, ha])
    · exact h (by rw [← string_mk_data b, hb])

theorem flushBuf_ctxAfter (fl : JsonFlags) (buf delivered : String) (hc₀ : Bool)
    (base : String) (r₀ w₀ : Nat) :
    flushBuf ⟨fl, buf, decide (delivered ≠ "")⟩ (ctxAfter hc₀ base r₀ w₀ delivered) =
      (⟨fl, "", decide (delivered ++ buf ≠ "")⟩,
        ctxAfter hc₀ base r₀ w₀ (delivered ++ buf)) := by
  by_cases hb : buf = ""
  · subst hb
    rw [flushBuf]
    simp [String.append_empty]
  · rw [flushBuf]
    by_cases hd : delivered = "" <;> cases hc₀ <;>
      simp [hb, hd, ctxAfter, string_append_ne_empty_iff, byteLength_append,
        byteLength_nil, String.append_assoc, String.append_empty,
        String.empty_append] <;>
      omega

theorem stepFlush_sim {fl : JsonFlags} {c : Char} {fl' : JsonFlags} {out : List Char}
    (hc : charStep fl c = .ok (fl', out)) (buf delivered : String) (hc₀ : Bool)
    (base : String) (r₀ w₀ : Nat) :
    ∃ delivered' buf',
      stepFlush ⟨fl, buf, decide (delivered ≠ "")⟩ (ctxAfter hc₀ base r₀ w₀ delivered) c =
        .ok (⟨fl', buf', decide (delivered' ≠ "")⟩, ctxAfter hc₀ base r₀ w₀ delivered')
      ∧ delivered'.data ++ buf'.data = delivered.data ++ (buf.data ++ out) := by
  rw [stepFlush, hc]
  by_cases hth : 64 * 1024 ≤ (buf ++ String.mk out).length
  · refine ⟨delivered ++ (buf ++ String.mk out), "", ?_, ?_⟩
    · simp only [hth, if_pos]
      rw [flushBuf_ctxAfter]
    · simp [String.data_append]
  · refine ⟨delivered, buf ++ String.mk out, ?_, ?_⟩
    · simp only [hth, if_neg, not_false_iff]
    · simp [String.data_append]

theorem stepFlush_err {st : InputState} {ctx : OutCtx} {c : Char} {e : JsonErr}
    (hc : charStep st.flags c = .error e) :
    stepFlush st ctx c = .error e := by
  rw [stepFlush, hc]

theorem processChars_sim_ok {cs : List Char} {fl fl' : JsonFlags} {out : List Char}
    (hscan : scanChars fl cs = .ok (fl', out)) :
    ∀ (buf delivered : String) (hc₀ : Bool) (base : String) (r₀ w₀ : Nat),
    ∃ delivered' buf',
      processChars ⟨fl, buf, decide (delivered ≠ "")⟩
          (ctxAfter hc₀ base r₀ w₀ delivered) cs =
        (⟨fl', buf', decide (delivered' ≠ "")⟩, ctxAfter hc₀ base r₀ w₀ delivered', none)
      ∧ delivered'.data ++ buf'.data = delivered.data ++ (buf.data ++ out) := by
  induction cs generalizing fl out with
  | nil =>
    intro buf delivered hc₀ base r₀ w₀
    rw [scanChars] at hscan
    obtain ⟨rfl, rfl⟩ : fl = fl' ∧ [] = out := by simpa using hscan
    exact ⟨delivered, buf, rfl, by simp⟩
  | cons c cs ih =>
    intro buf delivered hc₀ base r₀ w₀
    rw [scanChars] at hscan
    split at hscan
    · exact absurd hscan (by simp)
    case _ s1 out1 heq =>
      split at hscan
      · exact absurd hscan (by simp)
      case _ s2 out2 heq2 =>
        obtain ⟨h1, h2⟩ : s2 = fl' ∧ out1 ++ out2 = out := by simpa using hscan
        subst h1
        obtain ⟨d1, b1, hstep, hdat1⟩ := stepFlush_sim heq buf delivered hc₀ base r₀ w₀
        obtain ⟨d2, b2, hrest, hdat2⟩ := ih heq2 b1 d1 hc₀ base r₀ w₀
        refine ⟨d2, b2, ?_, ?_⟩
        · rw [processChars, hstep]
          exact hrest
        · rw [hdat2, ← h2]
          have h3 := congrArg (fun l => l ++ out2) hdat1
          simpa [List.append_assoc] using h3

theorem flushBuf_flags (st : InputState) (ctx : OutCtx) :
    (flushBuf st ctx).1.flags = st.flags := by
  rw [flushBuf]
  by_cases hb : st.buffer = ""
  · simp [hb]
  · by_cases hic : st.inputHasContent <;> by_cases hoc : ctx.outputHasContent <;>
      simp [hb, hic, hoc]

theorem stepFlush_err_inv {st : InputState} {ctx : OutCtx} {c : Char} {e : JsonErr}
    (h : stepFlush st ctx c = .error e) : charStep st.flags c = .error e := by
  cases hc : charStep st.flags c with
  | error e2 =>
    rw [stepFlush, hc] at h
    obtain rfl : e2 = e := by simpa using h
    rfl
  | ok p =>
    obtain ⟨f', out⟩ := p
    rw [stepFlush, hc] at h
    dsimp only at h
    split at h <;> exact absurd h (by simp)

theorem stepFlush_flags_eq {st : InputState} {ctx : OutCtx} {c : Char}
    {st' : InputState} {ctx' : OutCtx} {fl1 : JsonFlags} {o1 : List Char}
    (h : stepFlush st ctx c = .ok (st', ctx'))
    (hc : charStep st.flags c = .ok (fl1, o1)) : st'.flags = fl1 := by
  rw [stepFlush, hc] at h
  dsimp only at h
  split at h
  · have h2 : flushBuf ⟨fl1, st.buffer ++ String.mk o1, st.inputHasContent⟩ ctx
        = (st', ctx') := by simpa using h
    have h3 := congrArg (fun p : InputState × OutCtx => p.1.flags) h2
    simpa [flushBuf_flags] using h3.symm
  · obtain ⟨h1, h2⟩ : (⟨fl1, st.buffer ++ String.mk o1, st.inputHasContent⟩ : InputState)
        = st' ∧ ctx = ctx' := by simpa using h
    rw [← h1]

theorem processChars_sim_err {cs : List Char} {fl : JsonFlags} {e : JsonErr}
    (hscan : scanChars fl cs = .error e) :
    ∀ (st : InputState) (ctx : OutCtx), st.flags = fl →
      (processChars st ctx cs).2.2 = some e := by
  induction cs generalizing fl with
  | nil => rw [scanChars] at hscan; exact absurd hscan (by simp)
  | cons c cs ih =>
    intro st ctx hfl
    rw [scanChars] at hscan
    split at hscan
    case _ e2 heq =>
      have hee : e2 = e := by simpa using hscan
      have heq' : charStep st.flags c = .error e := by rw [hfl, heq, hee]
      rw [processChars, stepFlush_err heq']
    case _ s1 out1 heq =>
      split at hscan
      case _ e' heq2 =>
        obtain rfl : e' = e := by simpa using hscan
        have heq' : charStep st.flags c = .ok (s1, out1) := by rw [hfl]; exact heq
        rw [processChars]
        cases hsf : stepFlush st ctx c with
        | error e2 =>
          have := stepFlush_err_inv hsf
          rw [heq'] at this
          exact absurd this (by simp)
        | ok p =>
          obtain ⟨st', ctx'⟩ := p
          exact ih heq2 st' ctx' (stepFlush_flags_eq hsf heq')
      case _ s2 out2 heq2 => exact absurd hscan (by simp)

theorem streamJson_ok {t c : String} (h : contentOf t = .ok c) (ctx : OutCtx) :
    streamJsonArrayContent ctx t =
      (ctxAfter ctx.outputHasContent ctx.written (ctx.reads + byteLength t)
        ctx.writes c, none) := by
  rw [contentOf] at h
  cases hscan : scanChars {} t.data with
  | error e => rw [hscan] at h; exact absurd h (by simp)
  | ok p =>
    obtain ⟨s, content⟩ := p
    rw [hscan] at h
    simp only at h
    by_cases hstart : s.started = true
    case neg => simp [hstart] at h
    by_cases hfin : s.finished = true
    case neg => simp [hstart, hfin] at h
    by_cases hdep : s.depth = 0
    case neg => simp [hstart, hfin, hdep] at h
    have hc : String.mk content = c := by simpa [hstart, hfin, hdep] using h
    obtain ⟨d', b', hproc, hdat⟩ :=
      processChars_sim_ok hscan "" "" ctx.outputHasContent ctx.written
        (ctx.reads + byteLength t) ctx.writes
    have hproc' : processChars (⟨{}, "", false⟩ : InputState)
        (ctxAfter ctx.outputHasContent ctx.written (ctx.reads + byteLength t)
          ctx.writes "") t.data =
        (⟨s, b', decide (d' ≠ "")⟩,
          ctxAfter ctx.outputHasContent ctx.written (ctx.reads + byteLength t)
            ctx.writes d', none) := hproc
    have e2 : ({ ctx with reads := ctx.reads + byteLength t } : OutCtx)
        = ctxAfter ctx.outputHasContent ctx.written (ctx.reads + byteLength t)
            ctx.writes "" := by
      simp [ctxAfter, byteLength_nil]
    have hcb : d' ++ b' = c := by
      rw [← hc, ← string_mk_data d', ← string_mk_data b', ← string_mk_append, hdat]
      simp
    unfold streamJsonArrayContent
    dsimp only
    rw [e2, hproc']
    dsimp only
    simp only [hstart, hfin, hdep, Bool.not_true, Bool.false_eq_true, if_false,
      ne_eq, not_true_eq_false, decide_False, Bool.or_false, ite_false]
    rw [flushBuf_ctxAfter]
    rw [hcb]

theorem streamJson_err {t : String} {e : JsonErr} (h : contentOf t = .error e)
    (ctx : OutCtx) : (streamJsonArrayContent ctx t).2 = some e := by
  rw [contentOf] at h
  cases hscan : scanChars {} t.data with
  | error e0 =>
    rw [hscan] at h
    obtain rfl : e0 = e := by simpa using h
    have hpc := processChars_sim_err hscan (⟨{}, "", false⟩ : InputState)
      ({ ctx with reads := ctx.reads + byteLength t }) rfl
    unfold streamJsonArrayContent
    dsimp only
    rcases hres : processChars ⟨{}, "", false⟩
        ({ ctx with reads := ctx.reads + byteLength t }) t.data with ⟨st1, ctx1, o⟩
    rw [hres] at hpc
    simp only at hpc
    rw [hpc]
  | ok p =>
    obtain ⟨s, content⟩ := p
    rw [hscan] at h
    simp only at h
    obtain ⟨d', b', hproc, hdat⟩ :=
      processChars_sim_ok hscan "" "" ctx.outputHasContent ctx.written
        (ctx.reads + byteLength t) ctx.writes
    have hproc' : processChars (⟨{}, "", false⟩ : InputState)
        (ctxAfter ctx.outputHasContent ctx.written (ctx.reads + byteLength t)
          ctx.writes "") t.data =
        (⟨s, b', decide (d' ≠ "")⟩,
          ctxAfter ctx.outputHasContent ctx.written (ctx.reads + byteLength t)
            ctx.writes d', none) := hproc
    have e2 : ({ ctx with reads := ctx.reads + byteLength t } : OutCtx)
        = ctxAfter ctx.outputHasContent ctx.written (ctx.reads + byteLength t)
            ctx.writes "" := by
      simp [ctxAfter, byteLength_nil]
    unfold streamJsonArrayContent
    dsimp only
    rw [e2, hproc']
    dsimp only
    by_cases hstart : s.started = true
    · by_cases hfin : s.finished = true
      · by_cases hdep : s.depth = 0
        · simp [hstart, hfin, hdep] at h
        · obtain rfl : JsonErr.unterminated = e := by
            simpa [hstart, hfin, hdep] using h
          simp [hstart, hfin, hdep]
      · obtain rfl : JsonErr.unterminated = e := by
          simpa [hstart, hfin] using h
        simp [hstart, hfin]
    · obtain rfl : JsonErr.emptyInput = e := by
        simpa [hstart] using h
      simp [hstart]

/-! ## The output sink only grows: bytes already written are never rolled
back. -/

theorem flushBuf_written_ext (st : InputState) (ctx : OutCtx) :
    ∃ u, (flushBuf st ctx).2.written = ctx.written ++ u := by
  rw [flushBuf]
  by_cases hb : st.buffer = ""
  · exact ⟨"", by simp [hb, String.append_empty]⟩
  · by_cases hic : st.inputHasContent <;> by_cases hoc : ctx.outputHasContent
    · exact ⟨st.buffer, by simp [hb, hic, hoc]⟩
    · exact ⟨st.buffer, by simp [hb, hic, hoc]⟩
    · exact ⟨"," ++ st.buffer, by simp [hb, hic, hoc, String.append_assoc]⟩
    · exact ⟨st.buffer, by simp [hb, hic, hoc]⟩

theorem stepFlush_written_ext {st : InputState} {ctx : OutCtx} {c : Char}
    {st' : InputState} {ctx' : OutCtx} (h : stepFlush st ctx c = .ok (st', ctx')) :
    ∃ u, ctx'.written = ctx.written ++ u := by
  cases hc : charStep st.flags c with
  | error e =>
    rw [stepFlush, hc] at h
    exact absurd h (by simp)
  | ok p =>
    obtain ⟨f', out⟩ := p
    rw [stepFlush, hc] at h
    dsimp only at h
    split at h
    · have h2 : flushBuf ⟨f', st.buffer ++ String.mk out, st.inputHasContent⟩ ctx
          = (st', ctx') := by simpa using h
      have := flushBuf_written_ext ⟨f', st.buffer ++ String.mk out, st.inputHasContent⟩ ctx
      rw [h2] at this
      exact this
    · obtain ⟨h1, h2⟩ :
          (⟨f', st.buffer ++ String.mk out, st.inputHasContent⟩ : InputState) = st'
            ∧ ctx = ctx' := by simpa using h
      exact ⟨"", by rw [← h2, String.append_empty]⟩

theorem processChars_written_ext (cs : List Char) :
    ∀ (st : InputState) (ctx : OutCtx),
      ∃ u, (processChars st ctx cs).2.1.written = ctx.written ++ u := by
  induction cs with
  | nil => exact fun st ctx => ⟨"", by rw [processChars, String.append_empty]⟩
  | cons c cs ih =>
    intro st ctx
    rw [processChars]
    cases hsf : stepFlush st ctx c with
    | error e => exact ⟨"", by simp [String.append_empty]⟩
    | ok p =>
      obtain ⟨st', ctx'⟩ := p
      obtain ⟨u1, h1⟩ := stepFlush_written_ext hsf
      obtain ⟨u2, h2⟩ := ih st' ctx'
      exact ⟨u1 ++ u2, by simp [h2, h1, String.append_assoc]⟩

theorem streamJson_written_ext (ctx : OutCtx) (t : String) :
    ∃ u, (streamJsonArrayContent ctx t).1.written = ctx.written ++ u := by
  unfold streamJsonArrayContent
  dsimp only
  rcases hres : processChars ⟨{}, "", false⟩
      ({ ctx with reads := ctx.reads + byteLength t }) t.data with ⟨st1, ctx1, o⟩
  have hext : ∃ u, ctx1.written = ctx.written ++ u := by
    have := processChars_written_ext t.data ⟨{}, "", false⟩
      ({ ctx with reads := ctx.reads + byteLength t })
    rw [hres] at this
    simpa using this
  cases o with
  | some e => simpa using hext
  | none =>
    dsimp only
    split
    · simpa using hext
    · split
      · simpa using hext
      · rcases hfl : flushBuf st1 ctx1 with ⟨st2, ctx2⟩
        have hext2 : ∃ u, ctx2.written = ctx1.written ++ u := by
          have := flushBuf_written_ext st1 ctx1
          rw [hfl] at this
          simpa using this
        obtain ⟨u1, h1⟩ := hext
        obtain ⟨u2, h2⟩ := hext2
        exact ⟨u1 ++ u2, by simp [h2, h1, String.append_assoc]⟩

/-! ## The input loop on well-formed inputs -/

theorem contentsOf_cons {t : String} {l : List String} {cs : List String}
    (h : contentsOf (t :: l) = .ok cs) :
    ∃ c cs', contentOf t = .ok c ∧ contentsOf l = .ok cs' ∧ cs = c :: cs' := by
  rw [contentsOf, List.mapM_cons] at h
  cases hc : contentOf t with
  | error e => rw [hc] at h; exact absurd h (by simp [Bind.bind, Except.bind])
  | ok c =>
    rw [hc] at h
    cases hl : l.mapM contentOf with
    | error e =>
      rw [show contentsOf l = l.mapM contentOf from rfl] at *
      rw [hl] at h
      exact absurd h (by simp [Bind.bind, Except.bind])
    | ok cs' =>
      rw [hl] at h
      refine ⟨c, cs', rfl, hl, ?_⟩
      have : c :: cs' = cs := by
        simpa [Bind.bind, Except.bind, Pure.pure, Except.pure] using h
      exact this.symm

theorem mergeJsonLoop_ok :
    ∀ (ps : List (Nat × String)) (cs : List String) (ctx : OutCtx) (step : Nat)
      (res : List Nat),
      contentsOf (ps.map Prod.snd) = .ok cs →
      mergeJsonLoop none ps ctx step res =
        ⟨ctxFold ctx ((ps.map Prod.snd).zip cs), step + 2 * ps.length,
          res ++ ps.map Prod.fst, none⟩ := by
  intro ps
  induction ps with
  | nil =>
    intro cs ctx step res h
    have h' : (Except.ok ([] : List String) : Except JsonErr (List String))
        = .ok cs := h
    obtain rfl : ([] : List String) = cs := by simpa using h'
    simp [mergeJsonLoop, ctxFold]
  | cons p ps ih =>
    obtain ⟨i, t⟩ := p
    intro cs ctx step res h
    obtain ⟨c, cs', hc, hrest, rfl⟩ := contentsOf_cons h
    rw [mergeJsonLoop]
    simp only [abortedAt, Bool.false_eq_true, if_false]
    rw [streamJson_ok hc ctx]
    dsimp only
    rw [ih cs' _ (step + 2) (res ++ [i]) hrest]
    simp only [List.map_cons, List.zip_cons_cons, ctxFold, List.length_cons]
    have hsteps : step + 2 + 2 * ps.length = step + 2 * (ps.length + 1) := by omega
    simp [List.zip, hsteps, List.append_assoc]

theorem byteLength_comma : byteLength "," = 1 := rfl

theorem contentsOf_length {l cs : List String} (h : contentsOf l = .ok cs) :
    l.length = cs.length := by
  induction l generalizing cs with
  | nil =>
    have h' : (Except.ok ([] : List String) : Except JsonErr (List String))
        = .ok cs := h
    obtain rfl : ([] : List String) = cs := by simpa using h'
    rfl
  | cons t l ih =>
    obtain ⟨c, cs', _, hrest, rfl⟩ := contentsOf_cons h
    simpa using ih hrest

theorem ctxFold_spec :
    ∀ (pairs : List (String × String)) (ctx : OutCtx),
      ctxFold ctx pairs =
        ⟨ctx.outputHasContent || (pairs.map Prod.snd).any (fun c => c ≠ ""),
         ctx.written ++ bodyFrom ctx.outputHasContent (pairs.map Prod.snd),
         ctx.reads + ((pairs.map Prod.fst).map byteLength).sum,
         ctx.writes + byteLength (bodyFrom ctx.outputHasContent (pairs.map Prod.snd))⟩ := by
  intro pairs
  induction pairs with
  | nil =>
    intro ctx
    simp [ctxFold, bodyFrom, String.append_empty, byteLength_nil]
  | cons p ps ih =>
    obtain ⟨t, c⟩ := p
    intro ctx
    rw [ctxFold, ih]
    cases hoc : ctx.outputHasContent <;> by_cases hc : c = "" <;>
      simp [ctxAfter, bodyFrom, hc, byteLength_append, byteLength_nil,
        byteLength_comma, String.append_empty, String.empty_append,
        String.append_assoc] <;>
      omega

theorem mergeJson_ok_spec {l cs : List String} (hne : l ≠ [])
    (h : contentsOf l = .ok cs) :
    mergeJson none l =
      ⟨"[" ++ bodyFrom false cs ++ "]",
       (l.map byteLength).sum,
       1 + byteLength (bodyFrom false cs) + 1,
       List.range l.length, 2 * l.length, none⟩ := by
  have hlen : cs.length ≤ l.length := le_of_eq (contentsOf_length h).symm
  rw [mergeJson, if_neg hne]
  dsimp only
  rw [mergeJsonLoop_ok l.enum cs ⟨false, "[", 0, 1⟩ 0 []
    (by rw [List.enum_map_snd]; exact h)]
  dsimp only
  rw [List.enum_map_snd, ctxFold_spec]
  dsimp only
  have hlen' : l.length ≤ cs.length := le_of_eq (contentsOf_length h)
  rw [List.map_fst_zip _ _ hlen', List.map_snd_zip _ _ hlen, List.enum_map_fst]
  simp [List.enum_length, String.append_assoc]

/-! ## The merged body equals the comma-intercalation of the non-empty
contents. -/

theorem commaJoin_go (as : List String) :
    ∀ acc, String.intercalate.go acc "," as = acc ++ commaJoin as := by
  induction as with
  | nil =>
    intro acc
    rw [String.intercalate.go]
    simp only [commaJoin]
    rw [String.append_empty]
  | cons a as ih =>
    intro acc
    rw [String.intercalate.go, ih]
    simp only [commaJoin]
    simp [String.append_assoc]

theorem bodyFrom_true (cs : List String) :
    bodyFrom true cs = commaJoin (cs.filter (fun c => c ≠ "")) := by
  induction cs with
  | nil => rfl
  | cons c cs ih =>
    by_cases hc : c = ""
    · subst hc
      rw [bodyFrom]
      simpa [String.empty_append] using ih
    · have hfil : List.filter (fun x => decide (x ≠ "")) (c :: cs)
          = c :: List.filter (fun x => decide (x ≠ "")) cs := by
        simp [hc]
      rw [bodyFrom, hfil]
      simp only [commaJoin]
      simp [hc, ih, String.append_assoc]

theorem bodyFrom_false_intercalate (cs : List String) :
    bodyFrom false cs = String.intercalate "," (cs.filter (fun c => c ≠ "")) := by
  induction cs with
  | nil => rfl
  | cons c cs ih =>
    by_cases hc : c = ""
    · subst hc
      rw [bodyFrom]
      simpa [String.empty_append] using ih
    · have hfil : List.filter (fun x => decide (x ≠ "")) (c :: cs)
          = c :: List.filter (fun x => decide (x ≠ "")) cs := by
        simp [hc]
      rw [bodyFrom, hfil]
      have hb : (false || decide (c ≠ "")) = true := by simp [hc]
      rw [hb]
      rw [show String.intercalate ","
          (c :: List.filter (fun x => decide (x ≠ "")) cs)
        = String.intercalate.go c "," (List.filter (fun x => decide (x ≠ "")) cs)
        from rfl]
      rw [commaJoin_go, bodyFrom_true]
      simp [hc]

/-! ## Prefix scans and the unique finish point -/

theorem contentOf_ok_scan {t c : String} (h : contentOf t = .ok c) :
    ∃ s content, scanChars {} t.data = .ok (s, content) ∧ s.started = true ∧
      s.finished = true ∧ s.depth = 0 ∧ String.mk content = c := by
  rw [contentOf] at h
  cases hscan : scanChars {} t.data with
  | error e => rw [hscan] at h; exact absurd h (by simp)
  | ok p =>
    obtain ⟨s, content⟩ := p
    rw [hscan] at h
    simp only at h
    by_cases hstart : s.started = true
    case neg => simp [hstart] at h
    by_cases hfin : s.finished = true
    case neg => simp [hstart, hfin] at h
    by_cases hdep : s.depth = 0
    case neg => simp [hstart, hfin, hdep] at h
    exact ⟨s, content, rfl, hstart, hfin, hdep, by simpa [hstart, hfin, hdep] using h⟩

theorem scan_prefix_ok {t : String} {s : JsonFlags} {out : List Char}
    (h : scanChars {} t.data = .ok (s, out)) (m : Nat) :
    ∃ sm om, scanChars {} (t.data.take m) = .ok (sm, om) := by
  have hdec := scanChars_append (t.data.take m) (t.data.drop m) {}
  rw [List.take_append_drop, h] at hdec
  cases hm : scanChars {} (t.data.take m) with
  | error e => rw [hm] at hdec; exact absurd hdec (by simp)
  | ok p =>
    obtain ⟨s1, o1⟩ := p
    exact ⟨s1, o1, rfl⟩

theorem finishedAfter_mono {t c : String} (h : contentOf t = .ok c) {m m' : Nat}
    (hm : m ≤ m') (hf : finishedAfter t m = true) :
    finishedAfter t m' = true := by
  obtain ⟨s, content, hscan, hstart, hfin, hdep, hc⟩ := contentOf_ok_scan h
  obtain ⟨s1, o1, h1⟩ := scan_prefix_ok hscan m
  obtain ⟨s2, o2, h2⟩ := scan_prefix_ok hscan m'
  rw [finishedAfter, h1] at hf
  rw [finishedAfter, h2]
  have hdecomp : t.data.take m' = t.data.take m ++ (t.data.drop m).take (m' - m) := by
    rw [← List.take_add]
    congr 1
    omega
  have happ := scanChars_append (t.data.take m) ((t.data.drop m).take (m' - m)) {}
  rw [← hdecomp, h1, h2] at happ
  dsimp only at happ
  have hg1 : GoodFlags s1 := scanChars_good h1 goodFlags_init
  have hs1 : s1.started = true := (hg1.2.2.1 hf).1
  cases hseg : scanChars s1 ((t.data.drop m).take (m' - m)) with
  | error e => rw [hseg] at happ; exact absurd happ (by simp)
  | ok q =>
    obtain ⟨sq, oq⟩ := q
    rw [hseg] at happ
    obtain ⟨hq1, hq2⟩ : s2 = sq ∧ o2 = o1 ++ oq := by simpa using happ
    obtain ⟨rfl, rfl⟩ := scanChars_finished_frozen hseg hs1 hf
    rw [hq1]
    exact hf

theorem finishedAfter_full {t c : String} (h : contentOf t = .ok c) :
    finishedAfter t t.length = true := by
  obtain ⟨s, content, hscan, hstart, hfin, hdep, hc⟩ := contentOf_ok_scan h
  rw [finishedAfter]
  rw [show t.data.take t.length = t.data from List.take_length t.data]
  rw [hscan]
  exact hfin

/-! ## Error classification of the scan -/

theorem scan_err_split {cs : List Char} {fl : JsonFlags} {e : JsonErr}
    (h : scanChars fl cs = .error e) :
    ∃ as c bs s1 o1, cs = as ++ c :: bs ∧ scanChars fl as = .ok (s1, o1) ∧
      charStep s1 c = .error e := by
  induction cs generalizing fl with
  | nil => rw [scanChars] at h; exact absurd h (by simp)
  | cons c cs ih =>
    cases hc : charStep fl c with
    | error e2 =>
      rw [scanChars_cons_err _ hc] at h
      obtain rfl : e2 = e := by simpa using h
      exact ⟨[], c, cs, fl, [], rfl, by rw [scanChars], hc⟩
    | ok p =>
      obtain ⟨s1, o1⟩ := p
      rw [scanChars_cons_ok _ hc] at h
      cases h2 : scanChars s1 cs with
      | error e2 =>
        rw [h2] at h
        dsimp only at h
        obtain rfl : e2 = e := by simpa using h
        obtain ⟨as, c', bs, s2, o2, hcs, hok, herr⟩ := ih h2
        refine ⟨c :: as, c', bs, s2, o1 ++ o2, by simp [hcs], ?_, herr⟩
        rw [scanChars_cons_ok as hc, hok]
      | ok q =>
        obtain ⟨s2, o2⟩ := q
        rw [h2] at h
        dsimp only at h
        exact absurd h (by simp)

theorem charStep_err_kinds {s : JsonFlags} {c : Char} {e : JsonErr}
    (h : charStep s c = .error e) :
    (e = .expectedArray ∧ s.started = false ∧ isWhitespaceChar c = false ∧ c ≠ '[') ∨
    (e = .unexpectedData ∧ s.started = true ∧ s.finished = true ∧
      isWhitespaceChar c = false) := by
  unfold charStep at h
  repeat' split at h
  all_goals simp_all

theorem scan_init_not_started {cs : List Char} {s : JsonFlags} {out : List Char}
    (h : scanChars {} cs = .ok (s, out)) (hs : s.started = false) :
    cs.dropWhile (fun c => isWhitespaceChar c) = [] := by
  cases hdw : cs.dropWhile (fun c => isWhitespaceChar c) with
  | nil => rfl
  | cons c ds =>
    by_cases hc : c = '['
    · subst hc
      rw [scan_init_open hdw] at h
      have := scanChars_started_mono h rfl
      rw [this] at hs
      exact absurd hs (by simp)
    · rw [scan_init_badHead hdw hc] at h
      exact absurd h (by simp)

theorem scan_init_started {cs : List Char} {s : JsonFlags} {out : List Char}
    (h : scanChars {} cs = .ok (s, out)) (hs : s.started = true) :
    (cs.dropWhile (fun c => isWhitespaceChar c)).head? = some '[' := by
  cases hdw : cs.dropWhile (fun c => isWhitespaceChar c) with
  | nil =>
    rw [scan_init_allWs hdw] at h
    obtain ⟨h1, h2⟩ : ({} : JsonFlags) = s ∧ [] = out := by simpa using h
    rw [← h1] at hs
    exact absurd hs (by simp)
  | cons c ds =>
    by_cases hc : c = '['
    · simp [hc]
    · rw [scan_init_badHead hdw hc] at h
      exact absurd h (by simp)

theorem contentOf_err_iff (t : String) :
    (∃ e, contentOf t = .error e) ↔
      firstNonWs t ≠ some '[' ∨ trailingGarbage t ∨ unterminatedEnd t := by
  constructor
  · rintro ⟨e, he⟩
    rw [contentOf] at he
    cases hscan : scanChars {} t.data with
    | error e0 =>
      obtain ⟨as, c, bs, s1, o1, hcs, hok, herr⟩ := scan_err_split hscan
      rcases charStep_err_kinds herr with ⟨_, hs1, hws, hc⟩ | ⟨_, hs1, hf1, hws⟩
      · left
        have hdw : as.dropWhile (fun c => isWhitespaceChar c) = [] :=
          scan_init_not_started hok hs1
        rw [firstNonWs, hcs, List.dropWhile_append]
        simp only [hdw, List.isEmpty_nil, if_true]
        rw [List.dropWhile_cons]
        simp [hws, hc]
      · right; left
        refine ⟨as.length, c, ?_, ?_, hws⟩
        · rw [hcs, List.get?_eq_getElem?, List.getElem?_append_right (le_refl _)]
          simp
        · rw [finishedAfter, hcs, List.take_left, hok]
          exact hf1
    | ok p =>
      obtain ⟨s, content⟩ := p
      rw [hscan] at he
      simp only at he
      by_cases hstart : s.started = true
      · right; right
        by_cases hfin : s.finished = true
        · by_cases hdep : s.depth = 0
          · rw [if_neg (by simp [hstart]), if_neg (by simp [hfin, hdep])] at he
            exact absurd he (by simp)
          · exact ⟨s, content, hscan, hstart, hdep⟩
        · have hg := scanChars_good hscan goodFlags_init
          have hdep := hg.2.2.2 hstart (by revert hfin; cases s.finished <;> simp)
          exact ⟨s, content, hscan, hstart, by omega⟩
      · left
        have hs : s.started = false := by revert hstart; cases s.started <;> simp
        have hdw := scan_init_not_started hscan hs
        rw [firstNonWs, hdw]
        simp
  · intro h
    rcases h with h | h | h
    · cases hdw : t.data.dropWhile (fun c => isWhitespaceChar c) with
      | nil =>
        refine ⟨.emptyInput, ?_⟩
        rw [contentOf, scan_init_allWs hdw]
        rfl
      | cons c ds =>
        have hc : c ≠ '[' := by
          intro hceq
          apply h
          rw [firstNonWs, hdw, hceq]
          rfl
        refine ⟨.expectedArray, ?_⟩
        rw [contentOf, scan_init_badHead hdw hc]
    · obtain ⟨m, c, hget, hfin, hws⟩ := h
      rw [finishedAfter] at hfin
      cases hpre : scanChars {} (t.data.take m) with
      | error e0 => rw [hpre] at hfin; exact absurd hfin (by simp)
      | ok p =>
        obtain ⟨s1, o1⟩ := p
        rw [hpre] at hfin
        have hg := scanChars_good hpre goodFlags_init
        have hs1 : s1.started = true := (hg.2.2.1 hfin).1
        have hmlt : m < t.data.length := by
          rw [List.get?_eq_getElem?] at hget
          exact (List.getElem?_eq_some.mp hget).1
        have hdrop : t.data.drop m = c :: t.data.drop (m + 1) := by
          rw [List.drop_eq_getElem_cons hmlt]
          congr 1
          rw [List.get?_eq_getElem?] at hget
          obtain ⟨hlt, hval⟩ := List.getElem?_eq_some.mp hget
          exact hval
        have happ := scanChars_append (t.data.take m) (t.data.drop m) {}
        rw [List.take_append_drop, hpre] at happ
        dsimp only at happ
        rw [hdrop, scanChars_cons_err _ (charStep_err_of_finished hs1 hfin hws)] at happ
        exact ⟨.unexpectedData, by rw [contentOf, happ]⟩
    · obtain ⟨s, content, hscan, hstart, hdep⟩ := h
      refine ⟨.unterminated, ?_⟩
      rw [contentOf, hscan]
      simp [hstart, hdep]

/-! ## Cancellation: runs with a fired signal against the undisturbed run -/

theorem mergeJsonLoop_steps_ge (fireAt : Option Nat) :
    ∀ (ps : List (Nat × String)) (ctx : OutCtx) (step : Nat) (res : List Nat),
      step ≤ (mergeJsonLoop fireAt ps ctx step res).steps := by
  intro ps
  induction ps with
  | nil => intro ctx step res; rw [mergeJsonLoop]
  | cons p ps ih =>
    obtain ⟨i, t⟩ := p
    intro ctx step res
    rw [mergeJsonLoop]
    by_cases h1 : abortedAt fireAt step = true
    · simp only [h1, if_true]
      omega
    · simp only [h1, if_false, Bool.false_eq_true]
      by_cases h2 : abortedAt fireAt (step + 1) = true
      · simp only [h2, if_true]
        omega
      · simp only [h2, if_false, Bool.false_eq_true]
        rcases hs : streamJsonArrayContent ctx t with ⟨ctx1, o⟩
        cases o with
        | some e => simp
        | none =>
          have := ih ctx1 (step + 2) (res ++ [i])
          simp only []
          omega

theorem mergeJsonLoop_written_ext (fireAt : Option Nat) :
    ∀ (ps : List (Nat × String)) (ctx : OutCtx) (step : Nat) (res : List Nat),
      ∃ u, (mergeJsonLoop fireAt ps ctx step res).ctx.written = ctx.written ++ u := by
  intro ps
  induction ps with
  | nil =>
    intro ctx step res
    exact ⟨"", by rw [mergeJsonLoop, String.append_empty]⟩
  | cons p ps ih =>
    obtain ⟨i, t⟩ := p
    intro ctx step res
    rw [mergeJsonLoop]
    by_cases h1 : abortedAt fireAt step = true
    · simp only [h1, if_true]
      exact ⟨"", by rw [String.append_empty]⟩
    · simp only [h1, if_false, Bool.false_eq_true]
      by_cases h2 : abortedAt fireAt (step + 1) = true
      · simp only [h2, if_true]
        exact ⟨"", by rw [String.append_empty]⟩
      · simp only [h2, if_false, Bool.false_eq_true]
        obtain ⟨u1, hu1⟩ := streamJson_written_ext ctx t
        rcases hs : streamJsonArrayContent ctx t with ⟨ctx1, o⟩
        rw [hs] at hu1
        simp only at hu1
        cases o with
        | some e => exact ⟨u1, hu1⟩
        | none =>
          obtain ⟨u2, hu2⟩ := ih ctx1 (step + 2) (res ++ [i])
          exact ⟨u1 ++ u2, by rw [hu2, hu1, String.append_assoc]⟩

theorem mergeJsonLoop_abort (f : Nat) :
    ∀ (ps : List (Nat × String)) (ctx : OutCtx) (step : Nat) (res : List Nat),
      step ≤ f →
      (f < (mergeJsonLoop none ps ctx step res).steps →
        (mergeJsonLoop (some f) ps ctx step res).error = some .aborted ∧
        ∃ u, (mergeJsonLoop none ps ctx step res).ctx.written =
          (mergeJsonLoop (some f) ps ctx step res).ctx.written ++ u) ∧
      ((mergeJsonLoop none ps ctx step res).steps ≤ f →
        mergeJsonLoop (some f) ps ctx step res = mergeJsonLoop none ps ctx step res) := by
  intro ps
  induction ps with
  | nil =>
    intro ctx step res hstep
    rw [mergeJsonLoop, mergeJsonLoop]
    exact ⟨fun hlt => absurd hlt (by simp only []; omega), fun _ => rfl⟩
  | cons p ps ih =>
    obtain ⟨i, t⟩ := p
    intro ctx step res hstep
    simp only [mergeJsonLoop, abortedAt, Bool.false_eq_true, if_false]
    by_cases hf1 : f = step
    · have hd1 : decide (f ≤ step) = true := decide_eq_true (by omega)
      simp only [hd1, if_true]
      rcases hs : streamJsonArrayContent ctx t with ⟨ctx1, o⟩
      constructor
      · intro _
        refine ⟨by trivial, ?_⟩
        obtain ⟨u1, hu1⟩ := streamJson_written_ext ctx t
        rw [hs] at hu1
        simp only at hu1
        cases o with
        | some e => exact ⟨u1, hu1⟩
        | none =>
          obtain ⟨u2, hu2⟩ := mergeJsonLoop_written_ext none ps ctx1 (step + 2) (res ++ [i])
          exact ⟨u1 ++ u2, by simp only []; rw [hu2, hu1, String.append_assoc]⟩
      · intro hle
        exfalso
        cases o with
        | some e => simp only [] at hle; omega
        | none =>
          have := mergeJsonLoop_steps_ge none ps ctx1 (step + 2) (res ++ [i])
          simp only [] at hle
          omega
    · have hd1 : decide (f ≤ step) = false := decide_eq_false (by omega)
      simp only [hd1, Bool.false_eq_true, if_false]
      by_cases hf2 : f = step + 1
      · have hd2 : decide (f ≤ step + 1) = true := decide_eq_true (by omega)
        simp only [hd2, if_true]
        rcases hs : streamJsonArrayContent ctx t with ⟨ctx1, o⟩
        obtain ⟨u1, hu1⟩ := streamJson_written_ext ctx t
        rw [hs] at hu1
        simp only at hu1
        constructor
        · intro _
          refine ⟨by trivial, ?_⟩
          cases o with
          | some e => exact ⟨u1, hu1⟩
          | none =>
            obtain ⟨u2, hu2⟩ := mergeJsonLoop_written_ext none ps ctx1 (step + 2) (res ++ [i])
            exact ⟨u1 ++ u2, by simp only []; rw [hu2, hu1, String.append_assoc]⟩
        · intro hle
          exfalso
          cases o with
          | some e => simp only [] at hle; omega
          | none =>
            have := mergeJsonLoop_steps_ge none ps ctx1 (step + 2) (res ++ [i])
            simp only [] at hle
            omega
      · have hd2 : decide (f ≤ step + 1) = false := decide_eq_false (by omega)
        simp only [hd2, Bool.false_eq_true, if_false]
        rcases hs : streamJsonArrayContent ctx t with ⟨ctx1, o⟩
        cases o with
        | some e =>
          exact ⟨fun hlt => absurd hlt (by simp only []; omega), fun _ => rfl⟩
        | none =>
          have := ih ctx1 (step + 2) (res ++ [i]) (by omega)
          exact this

theorem mergeJson_fields (fireAt : Option Nat) (inputs : List String)
    (hne : inputs ≠ []) :
    (mergeJson fireAt inputs).steps =
      (mergeJsonLoop fireAt inputs.enum ⟨false, "[", 0, 1⟩ 0 []).steps ∧
    (mergeJson fireAt inputs).error =
      (mergeJsonLoop fireAt inputs.enum ⟨false, "[", 0, 1⟩ 0 []).error ∧
    (mergeJson fireAt inputs).resolved =
      (mergeJsonLoop fireAt inputs.enum ⟨false, "[", 0, 1⟩ 0 []).resolved ∧
    ((mergeJson fireAt inputs).output =
        (mergeJsonLoop fireAt inputs.enum ⟨false, "[", 0, 1⟩ 0 []).ctx.written ∨
      ((mergeJsonLoop fireAt inputs.enum ⟨false, "[", 0, 1⟩ 0 []).error = none ∧
        (mergeJson fireAt inputs).output =
          (mergeJsonLoop fireAt inputs.enum ⟨false, "[", 0, 1⟩ 0 []).ctx.written ++ "]")) := by
  rw [mergeJson, if_neg hne]
  dsimp only
  rcases hl : mergeJsonLoop fireAt inputs.enum ⟨false, "[", 0, 1⟩ 0 [] with ⟨ctxL, stepsL, resL, errL⟩
  cases errL <;> simp

/-! ## CSV lemmas -/

theorem string_foldl_append (as : List String) :
    ∀ x y, as.foldl (fun r s => r ++ s) (x ++ y) = x ++ as.foldl (fun r s => r ++ s) y := by
  induction as with
  | nil => intro x y; rfl
  | cons a as ih =>
    intro x y
    show as.foldl _ (x ++ y ++ a) = x ++ as.foldl _ (y ++ a)
    rw [String.append_assoc]
    exact ih x (y ++ a)

theorem string_join_cons (a : String) (as : List String) :
    String.join (a :: as) = a ++ String.join as := by
  show as.foldl (fun r s => r ++ s) ("" ++ a) = a ++ as.foldl (fun r s => r ++ s) ""
  rw [String.empty_append, show (a : String) = a ++ "" from (String.append_empty a).symm,
    string_foldl_append]
  rw [String.append_empty]

theorem lineJoin_cons (l : String) (ls : List String) :
    lineJoin (l :: ls) = (l ++ "\n") ++ lineJoin ls := by
  rw [lineJoin, List.map_cons, string_join_cons]
  rfl

theorem csvFoldLines (ls : List String) :
    ∀ (st : CsvState),
      ls.foldl
        (fun st line =>
          { st with output := st.output ++ (line ++ "\n"),
                    writes := st.writes + byteLength (line ++ "\n") }) st =
      { st with output := st.output ++ lineJoin ls,
                writes := st.writes + byteLength (lineJoin ls) } := by
  induction ls with
  | nil =>
    intro st
    show st = _
    have h1 : lineJoin [] = "" := rfl
    rw [h1, String.append_empty, byteLength_nil]
    simp
  | cons l ls ih =>
    intro st
    rw [List.foldl_cons, ih, lineJoin_cons]
    simp [String.append_assoc, byteLength_append, Nat.add_assoc]

theorem csvConsume_later {idx : Nat} (hidx : idx ≠ 0) (st : CsvState) (t : String)
    {h0 : String} (hfl : st.firstLine = some h0) :
    csvConsume idx st t =
      { st with
        output := st.output ++ lineJoin (dedupTail h0 (readUtf8Lines t)),
        reads := st.reads + byteLength t,
        writes := st.writes + byteLength (lineJoin (dedupTail h0 (readUtf8Lines t))) } := by
  rw [csvConsume]
  cases hls : readUtf8Lines t with
  | nil =>
    show ({ st with reads := st.reads + byteLength t } : CsvState) = _
    have h1 : lineJoin (dedupTail h0 []) = "" := rfl
    rw [h1, String.append_empty, byteLength_nil]
    simp
  | cons h tl =>
    simp only [hidx, if_neg, hfl]
    by_cases hh : h = h0
    · subst hh
      rw [csvFoldLines]
      simp [dedupTail, String.append_assoc, byteLength_append, Nat.add_assoc]
    · rw [csvFoldLines]
      simp [dedupTail, hh, lineJoin_cons, String.append_assoc, byteLength_append,
        Nat.add_assoc]

theorem csvLoop_rest (rest : List String) :
    ∀ (k : Nat) (st : CsvState) (h0 : String), st.firstLine = some h0 → 1 ≤ k →
      (List.enumFrom k rest).foldl (fun st p => csvConsume p.1 st p.2) st =
        { st with
          output := st.output ++
            String.join (rest.map (fun t => lineJoin (dedupTail h0 (readUtf8Lines t)))),
          reads := st.reads + (rest.map byteLength).sum,
          writes := st.writes +
            (rest.map (fun t => byteLength (lineJoin (dedupTail h0 (readUtf8Lines t))))).sum } := by
  induction rest with
  | nil =>
    intro k st h0 hfl hk
    show st = _
    simp [show String.join ([] : List String) = "" from rfl]
  | cons t rest ih =>
    intro k st h0 hfl hk
    rw [List.enumFrom_cons, List.foldl_cons]
    rw [csvConsume_later (by omega) st t hfl]
    have hrec := ih (k + 1)
      ({ st with
          output := st.output ++ lineJoin (dedupTail h0 (readUtf8Lines t)),
          reads := st.reads + byteLength t,
          writes := st.writes +
            byteLength (lineJoin (dedupTail h0 (readUtf8Lines t))) })
      h0 hfl (by omega)
    rw [hrec]
    simp [string_join_cons, String.append_assoc, Nat.add_assoc]

theorem mergeCsv_spec {t0 : String} {rest : List String} {h0 : String}
    {tl0 : List String} (hl : readUtf8Lines t0 = h0 :: tl0) :
    mergeCsv (t0 :: rest) =
      ⟨some h0,
       lineJoin (h0 :: tl0) ++
         String.join (rest.map (fun t => lineJoin (dedupTail h0 (readUtf8Lines t)))),
       byteLength t0 + (rest.map byteLength).sum,
       byteLength (lineJoin (h0 :: tl0)) +
         (rest.map (fun t => byteLength (lineJoin (dedupTail h0 (readUtf8Lines t))))).sum⟩ := by
  rw [mergeCsv, show (t0 :: rest).enum = (0, t0) :: List.enumFrom 1 rest from rfl,
    List.foldl_cons]
  have hc0 : csvConsume 0 (⟨none, "", 0, 0⟩ : CsvState) t0 =
      ⟨some h0, lineJoin (h0 :: tl0), byteLength t0,
        byteLength (lineJoin (h0 :: tl0))⟩ := by
    rw [csvConsume, hl]
    simp only [if_pos rfl]
    rw [csvFoldLines, lineJoin_cons]
    simp [String.empty_append, byteLength_append, Nat.add_assoc]
  rw [hc0]
  rw [csvLoop_rest rest 1 _ h0 rfl (by omega)]

theorem csvConsume_accounting (idx : Nat) (st : CsvState) (t : String) :
    ∃ w, (csvConsume idx st t).output = st.output ++ w ∧
      (csvConsume idx st t).writes = st.writes + byteLength w ∧
      (csvConsume idx st t).reads = st.reads + byteLength t := by
  rw [csvConsume]
  cases hls : readUtf8Lines t with
  | nil => exact ⟨"", by simp [String.append_empty, byteLength_nil]⟩
  | cons h tl =>
    by_cases hidx : idx = 0
    · subst hidx
      simp only [if_pos rfl]
      rw [csvFoldLines]
      exact ⟨(h ++ "\n") ++ lineJoin tl,
        by simp [String.append_assoc, byteLength_append, Nat.add_assoc]⟩
    · simp only [hidx, if_neg, if_false]
      rcases hfl : st.firstLine with _ | h0
      · simp only [if_pos rfl]
        rw [csvFoldLines]
        exact ⟨(h ++ "\n") ++ lineJoin tl,
          by simp [String.append_assoc, byteLength_append, Nat.add_assoc]⟩
      · by_cases hh : h = h0
        · subst hh
          simp only [show (decide (h ≠ h) : Bool) = false from by simp,
            Bool.false_eq_true, if_false]
          rw [csvFoldLines]
          exact ⟨lineJoin tl, by simp [String.append_assoc, byteLength_append]⟩
        · simp only [show (decide (h ≠ h0) : Bool) = true from by simp [hh], if_true]
          rw [csvFoldLines]
          exact ⟨(h ++ "\n") ++ lineJoin tl,
            by simp [String.append_assoc, byteLength_append, Nat.add_assoc]⟩

theorem mergeCsv_accounting (l : List String) :
    (mergeCsv l).reads = (l.map byteLength).sum ∧
    (mergeCsv l).writes = byteLength (mergeCsv l).output := by
  have h : ∀ (ps : List (Nat × String)) (st : CsvState),
      ∃ w, (ps.foldl (fun st p => csvConsume p.1 st p.2) st).output = st.output ++ w ∧
        (ps.foldl (fun st p => csvConsume p.1 st p.2) st).writes =
          st.writes + byteLength w ∧
        (ps.foldl (fun st p => csvConsume p.1 st p.2) st).reads =
          st.reads + ((ps.map Prod.snd).map byteLength).sum := by
    intro ps
    induction ps with
    | nil =>
      intro st
      exact ⟨"", by simp [String.append_empty, byteLength_nil]⟩
    | cons p ps ih =>
      obtain ⟨i, t⟩ := p
      intro st
      rw [List.foldl_cons]
      obtain ⟨w1, hw1, hwr1, hr1⟩ := csvConsume_accounting i st t
      obtain ⟨w2, hw2, hwr2, hr2⟩ := ih (csvConsume i st t)
      refine ⟨w1 ++ w2, ?_, ?_, ?_⟩
      · rw [hw2, hw1, String.append_assoc]
      · rw [hwr2, hwr1, byteLength_append]
        omega
      · rw [hr2, hr1]
        simp [Nat.add_assoc]
  obtain ⟨w, hw, hwr, hr⟩ := h l.enum ⟨none, "", 0, 0⟩
  rw [mergeCsv]
  constructor
  · rw [hr, List.enum_map_snd]
    simp
  · rw [hwr, hw]
    simp [String.empty_append, byteLength_nil]

/-! ## Arrow lemmas -/

theorem firstDecodeErr_ok (inputs : List (List Nat)) :
    firstDecodeErr (inputs.map Except.ok) = none := by
  induction inputs with
  | nil => rfl
  | cons bs rest ih => simpa [firstDecodeErr] using ih

theorem yieldedBatches_ok (inputs : List (List Nat)) :
    yieldedBatches (inputs.map Except.ok) = inputs.join := by
  induction inputs with
  | nil => rfl
  | cons bs rest ih => simp [yieldedBatches, ih]

theorem eosCount_encodeClosed (bs : List Nat) :
    eosCount (encodeClosed bs) = 1 := by
  rw [eosCount, encodeClosed]
  rw [List.count_cons, List.count_append]
  have h1 : (bs.map ArrowMsg.recordBatch).count ArrowMsg.eos = 0 := by
    rw [List.count_eq_zero]
    intro hmem
    obtain ⟨b, _, hb⟩ := List.mem_map.mp hmem
    exact absurd hb (by simp)
  simp [h1]

/-! ## Claim theorems -/

/-- Claim C7: all record batches decoded from the inputs are forwarded, in
input order and unmodified, into one writer session opened once before the
first input and closed once after the last, so the merged stream carries
exactly one end-of-stream marker; merging one 2-row batch from each of two
sources decodes to exactly 4 rows and one end-of-stream marker; and any
failure of the decode/forward path or of the encode/pipe path aborts the
writer session. -/
theorem claim7_arrow_single_session :
    (∀ (inputs : List (List Nat)),
      (mergeArrowRun (inputs.map Except.ok) none).2 = .ok (encodeClosed inputs.join) ∧
      (mergeArrowRun (inputs.map Except.ok) none).1 =
        SessionEvent.opened ::
          (inputs.join.map SessionEvent.wrote ++ [SessionEvent.closed]) ∧
      (mergeArrowRun (inputs.map Except.ok) none).1.count SessionEvent.opened = 1 ∧
      (mergeArrowRun (inputs.map Except.ok) none).1.count SessionEvent.closed = 1 ∧
      eosCount (encodeClosed inputs.join) = 1) ∧
    (totalRows (encodeClosed (yieldedBatches [Except.ok [2], Except.ok [2]])) = 4 ∧
      eosCount (encodeClosed (yieldedBatches [Except.ok [2], Except.ok [2]])) = 1) ∧
    (∀ (inputs : List (Except String (List Nat))) (sinkErr : Option String),
      (mergeArrowRun inputs sinkErr).2.isOk = false →
        SessionEvent.aborted ∈ (mergeArrowRun inputs sinkErr).1) := by
  refine ⟨?_, ⟨by decide, by decide⟩, ?_⟩
  · intro inputs
    rw [mergeArrowRun, firstDecodeErr_ok, yieldedBatches_ok]
    refine ⟨rfl, rfl, ?_, ?_, eosCount_encodeClosed _⟩
    · have h1 : (inputs.join.map SessionEvent.wrote).count SessionEvent.opened = 0 := by
        rw [List.count_eq_zero]
        intro hmem
        obtain ⟨b, _, hb⟩ := List.mem_map.mp hmem
        exact absurd hb (by simp)
      rw [List.count_cons, List.count_append, h1]
      decide
    · have h1 : (inputs.join.map SessionEvent.wrote).count SessionEvent.closed = 0 := by
        rw [List.count_eq_zero]
        intro hmem
        obtain ⟨b, _, hb⟩ := List.mem_map.mp hmem
        exact absurd hb (by simp)
      rw [List.count_cons, List.count_append, h1]
      decide
  · intro inputs sinkErr hfail
    rw [mergeArrowRun] at hfail ⊢
    cases hd : firstDecodeErr inputs with
    | some e => simp [hd]
    | none =>
      cases hs : sinkErr with
      | some e => simp [hd, hs]
      | none =>
        rw [hd, hs] at hfail
        simp [Except.isOk, Except.toBool] at hfail

/-- Claim C5: the first input's first line is written once as the canonical
header; every later input's first line is dropped exactly when byte-equal
to it and otherwise emitted as an ordinary data line; every emitted line
carries one normalized trailing newline (`readUtf8Lines` strips `\r\n` and
yields a non-terminated trailing line, as the `"a,b\r\n1,2"` conjunct
shows); and the concrete merge of `["a,b\n1,2\n3,4\n", "a,b\n5,6\n"]`
yields `"a,b\n1,2\n3,4\n5,6\n"`. -/
theorem claim5_csv_header_dedup :
    (∀ (t0 : String) (rest : List String) (h0 : String) (tl0 : List String),
      readUtf8Lines t0 = h0 :: tl0 →
      (mergeCsv (t0 :: rest)).output =
        lineJoin (h0 :: tl0) ++
          String.join (rest.map (fun t => lineJoin (dedupTail h0 (readUtf8Lines t))))) ∧
    readUtf8Lines "a,b\r\n1,2" = ["a,b", "1,2"] ∧
    (mergeCsv ["a,b\n1,2\n3,4\n", "a,b\n5,6\n"]).output = "a,b\n1,2\n3,4\n5,6\n" := by
  refine ⟨?_, rfl, rfl⟩
  intro t0 rest h0 tl0 hl
  rw [mergeCsv_spec hl]

/-- Closed witness for C5 at the concrete merge of
`["a,b\n1,2\n3,4\n", "a,b\n5,6\n"]`. -/
theorem claim5_csv_header_dedup_witness :
    (mergeCsv ["a,b\n1,2\n3,4\n", "a,b\n5,6\n"]).output =
      lineJoin ("a,b" :: ["1,2", "3,4"]) ++
        String.join ((["a,b\n5,6\n"]).map
          (fun t => lineJoin (dedupTail "a,b" (readUtf8Lines t)))) :=
  claim5_csv_header_dedup.1 "a,b\n1,2\n3,4\n" ["a,b\n5,6\n"] "a,b" ["1,2", "3,4"] rfl

/-- Claim C6 (counterexample): the canonical header the code holds is the
first LINE of the first input, not its first non-empty line.  With first
input `"\nX\n"` the first non-empty line is `"X"`; under the claim the
second input's first line `"X"` would be dropped, but the code holds the
empty first line `""` as header and keeps it. -/
theorem claim6_counterexample :
    csvClaimHeader "\nX\n" = some "X" ∧
    (readUtf8Lines "X\n").head? = some "X" ∧
    (mergeCsv ["\nX\n", "X\n"]).output = "\nX\nX\n" ∧
    (mergeCsvClaim6 ["\nX\n", "X\n"]).output = "\nX\n" ∧
    (mergeCsv ["\nX\n", "X\n"]).output ≠ (mergeCsvClaim6 ["\nX\n", "X\n"]).output ∧
    (mergeCsv ["\nX\n", "X\n"]).firstLine = some "" := by
  refine ⟨rfl, rfl, rfl, rfl, by decide, rfl⟩

/-- Claim C6 as amended: the canonical header held for deduplication is the
first line of the first input (which may be the empty string), held
verbatim, and each subsequent input's first line is compared against it by
exact string equality. -/
theorem claim6_amended_header :
    ∀ (t0 : String) (rest : List String) (h0 : String) (tl0 : List String),
      readUtf8Lines t0 = h0 :: tl0 →
      (mergeCsv (t0 :: rest)).firstLine = some h0 ∧
      (∀ (idx : Nat) (st : CsvState) (t : String), idx ≠ 0 →
        st.firstLine = some h0 →
        (csvConsume idx st t).output =
          st.output ++ lineJoin (dedupTail h0 (readUtf8Lines t))) := by
  intro t0 rest h0 tl0 hl
  refine ⟨?_, ?_⟩
  · rw [mergeCsv_spec hl]
  · intro idx st t hidx hfl
    rw [csvConsume_later hidx st t hfl]

/-- Closed witness for the amended C6 at the concrete input
`["\nX\n", "X\n"]`: the canonical header is the verbatim (empty) first
line of the first input. -/
theorem claim6_amended_header_witness :
    (mergeCsv ["\nX\n", "X\n"]).firstLine = some "" ∧
    (∀ (idx : Nat) (st : CsvState) (t : String), idx ≠ 0 →
      st.firstLine = some "" →
      (csvConsume idx st t).output =
        st.output ++ lineJoin (dedupTail "" (readUtf8Lines t))) :=
  claim6_amended_header "\nX\n" ["X\n"] "" ["X"] rfl

/-- Claim C8: with the cancellation token modelled by the checkpoint index
at which it first reads aborted, a token signalled before any bytes of
input 0 are read (index 0 — checked before input 0 is even resolved)
rejects the call with the cancellation error, resolves no input at all (in
particular none past index 0), and leaves only the already-written opening
bracket; and whenever the token fires before the undisturbed run's last
checkpoint, the run rejects with the cancellation error while the bytes it
already wrote are kept — the undisturbed output extends the cancelled
run's output. -/
theorem claim8_cooperative_cancellation :
    ∀ (inputs : List String),
      (inputs ≠ [] →
        (mergeJson (some 0) inputs).error = some .aborted ∧
        (mergeJson (some 0) inputs).resolved = [] ∧
        (mergeJson (some 0) inputs).output = "[") ∧
      (∀ f, f < (mergeJson none inputs).steps →
        (mergeJson (some f) inputs).error = some .aborted ∧
        ∃ u, (mergeJson none inputs).output =
          (mergeJson (some f) inputs).output ++ u) := by
  intro inputs
  constructor
  · intro hne
    cases inputs with
    | nil => exact absurd rfl hne
    | cons t rest => exact ⟨rfl, rfl, rfl⟩
  · intro f hf
    by_cases hne : inputs = []
    · subst hne
      exact absurd hf (by rw [mergeJson]; simp)
    · obtain ⟨hsN, heN, _, houtN⟩ := mergeJson_fields none inputs hne
      obtain ⟨hsS, heS, _, houtS⟩ := mergeJson_fields (some f) inputs hne
      rw [hsN] at hf
      have habort := (mergeJsonLoop_abort f inputs.enum ⟨false, "[", 0, 1⟩ 0 []
        (Nat.zero_le f)).1 hf
      obtain ⟨herr, u, hwr⟩ := habort
      have hS : (mergeJson (some f) inputs).output =
          (mergeJsonLoop (some f) inputs.enum ⟨false, "[", 0, 1⟩ 0 []).ctx.written := by
        rcases houtS with h | ⟨he0, h⟩
        · exact h
        · rw [herr] at he0
          exact absurd he0 (by simp)
      refine ⟨by rw [heS, herr], ?_⟩
      rcases houtN with h | ⟨_, h⟩
      · exact ⟨u, by rw [h, hS, hwr]⟩
      · exact ⟨u ++ "]", by rw [h, hS, hwr, String.append_assoc]⟩

/-- Closed instance of C8 at the concrete run `["[1]", "[2]"]` with the
token firing at checkpoint 2: the call rejects with the cancellation
error and the undisturbed output `"[1,2]"` extends the cancelled output
`"[1"`. -/
theorem claim8_cancellation_witness :
    (mergeJson (some 2) ["[1]", "[2]"]).error = some .aborted ∧
    ∃ u, (mergeJson none ["[1]", "[2]"]).output =
      (mergeJson (some 2) ["[1]", "[2]"]).output ++ u :=
  (claim8_cooperative_cancellation ["[1]", "[2]"]).2 2 (by decide)

/-- Claim C10: the opening bracket is written to the output sink before the
first cancellation check and before any input is resolved: a call whose
signal is already aborted at entry still shows the single written byte `[`
while rejecting with the cancellation error and resolving nothing; and a
call whose first input is invalid rejects with that input's format error
while the output still starts with the already-written `[`. -/
theorem claim10_bracket_before_checks :
    ∀ (inputs : List String),
      (inputs ≠ [] →
        (mergeJson (some 0) inputs).output = "[" ∧
        (mergeJson (some 0) inputs).resolved = [] ∧
        (mergeJson (some 0) inputs).error = some .aborted ∧
        1 ≤ (mergeJson (some 0) inputs).output.length) ∧
      (∀ (t : String) (rest : List String) (e : JsonErr), contentOf t = .error e →
        (mergeJson none (t :: rest)).error = some (.json e) ∧
        ∃ u, (mergeJson none (t :: rest)).output = "[" ++ u) := by
  intro inputs
  constructor
  · intro hne
    cases inputs with
    | nil => exact absurd rfl hne
    | cons t rest => exact ⟨rfl, rfl, rfl, Nat.le.refl⟩
  · intro t rest e he
    have h2 := streamJson_err he (⟨false, "[", 0, 1⟩ : OutCtx)
    obtain ⟨u, hu⟩ := streamJson_written_ext (⟨false, "[", 0, 1⟩ : OutCtx) t
    rcases hs : streamJsonArrayContent ⟨false, "[", 0, 1⟩ t with ⟨ctx1, o⟩
    rw [hs] at h2 hu
    simp only at h2 hu
    obtain rfl : o = some e := h2
    rw [mergeJson, if_neg (by simp)]
    dsimp only
    rw [show (t :: rest).enum = (0, t) :: List.enumFrom 1 rest from rfl]
    rw [mergeJsonLoop]
    simp only [abortedAt, Bool.false_eq_true, if_false]
    rw [hs]
    exact ⟨rfl, u, hu⟩

/-- Closed instance of C10: a signal aborted at entry on inputs
`["[1]"]` leaves exactly the opening bracket written, and the invalid
first input `"x"` rejects with the format error while the output starts
with `[`. -/
theorem claim10_bracket_before_checks_witness :
    (mergeJson (some 0) ["[1]"]).output = "[" ∧
    (mergeJson none ["x"]).error = some (.json .expectedArray) ∧
    ∃ u, (mergeJson none ["x"]).output = "[" ++ u :=
  ⟨((claim10_bracket_before_checks ["[1]"]).1 (by decide)).1,
    ((claim10_bracket_before_checks ["[1]"]).2 "x" [] .expectedArray rfl).1,
    ((claim10_bracket_before_checks ["[1]"]).2 "x" [] .expectedArray rfl).2⟩

/-- Claim C4: one input fails with a format error exactly when its first
non-whitespace character is not `[` (also covering an input with no
non-whitespace character at all — the opening bracket is missing), or a
non-whitespace character follows the closing bracket of its array, or the
input ends with the array opened but its nesting not balanced back to
zero; and whatever was already written to the output sink is left as-is —
the result only appends to it. -/
theorem claim4_error_taxonomy :
    ∀ (t : String) (ctx : OutCtx),
      ((streamJsonArrayContent ctx t).2 ≠ none ↔
        firstNonWs t ≠ some '[' ∨ trailingGarbage t ∨ unterminatedEnd t) ∧
      ∃ u, (streamJsonArrayContent ctx t).1.written = ctx.written ++ u := by
  intro t ctx
  refine ⟨?_, streamJson_written_ext ctx t⟩
  rw [← contentOf_err_iff]
  constructor
  · intro hne
    cases hco : contentOf t with
    | error e => exact ⟨e, rfl⟩
    | ok c =>
      rw [streamJson_ok hco ctx] at hne
      simp at hne
  · rintro ⟨e, he⟩
    rw [streamJson_err he ctx]
    simp

/-- Claim C3: throughout the per-character scan, brackets change the depth
counter only outside string literals (inside a string the depth is
untouched); an escaped quote or backslash never terminates the string; on
a well-formed input there is a single threshold index at which the scan
becomes (and stays) finished — depth returns to 0 exactly once, marking
the array end, finished being equivalent to started-with-depth-zero; and
the example input whose string element contains literal brackets scans to
exactly that string element. -/
theorem claim3_scan_invariants :
    (∀ (s : JsonFlags) (c : Char) (s' : JsonFlags) (out : List Char),
      GoodFlags s → s.inString = true → charStep s c = .ok (s', out) →
      s'.depth = s.depth) ∧
    (∀ (s : JsonFlags) (c : Char) (s' : JsonFlags) (out : List Char),
      GoodFlags s → s.inString = true → s.escape = true →
      charStep s c = .ok (s', out) → s'.inString = true) ∧
    (∀ (t c : String), contentOf t = .ok c →
      ∃ n, n ≤ t.length ∧
        ∀ m, m ≤ t.length → (finishedAfter t m = true ↔ n ≤ m)) ∧
    (∀ (t c : String), contentOf t = .ok c →
      ∀ (m : Nat) (s : JsonFlags) (out : List Char), m ≤ t.length →
        scanChars {} (t.data.take m) = .ok (s, out) →
        (s.finished = true ↔ s.started = true ∧ s.depth = 0)) ∧
    contentOf "[\"[1,\\\"a]b\\\"]\"]" = .ok "\"[1,\\\"a]b\\\"]\"" := by
  refine ⟨?_, ?_, ?_, ?_, rfl⟩
  · intro s c s' out hg hin hstep
    have hs : s.started = true := by
      by_contra hns
      have hinit := hg.2.1 (by revert hns; cases s.started <;> simp)
      rw [hinit] at hin
      exact absurd hin (by simp)
    exact charStep_inString_keeps_depth hstep hs hin
  · intro s c s' out hg hin he hstep
    have hs : s.started = true := by
      by_contra hns
      have hinit := hg.2.1 (by revert hns; cases s.started <;> simp)
      rw [hinit] at hin
      exact absurd hin (by simp)
    cases hf : s.finished with
    | true =>
      obtain ⟨rfl, rfl⟩ := charStep_finished_frozen hstep hs hf
      exact hin
    | false => exact charStep_escaped_stays_inString hstep hs hf hin he
  · intro t c h
    have hex : ∃ m, finishedAfter t m = true := ⟨t.length, finishedAfter_full h⟩
    refine ⟨Nat.find hex, Nat.find_min' hex (finishedAfter_full h), ?_⟩
    intro m _
    constructor
    · intro hf
      exact Nat.find_min' hex hf
    · intro hn
      exact finishedAfter_mono h hn (Nat.find_spec hex)
  · intro t c h m s out _ hscanP
    have hg := scanChars_good hscanP goodFlags_init
    constructor
    · exact hg.2.2.1
    · rintro ⟨hst, hdep⟩
      by_contra hfin
      have hf : s.finished = false := by revert hfin; cases s.finished <;> simp
      have := hg.2.2.2 hst hf
      rw [hdep] at this
      exact absurd this (by simp)

/-- Closed witness for C3: the depth is untouched by a `]` inside a string
(state with depth 2), an escaped quote leaves the string open, the input
`"[1]"` has a unique finish threshold, its full-scan state is finished with
started and depth 0, and the bracket-in-string example evaluates. -/
theorem claim3_scan_invariants_witness :
    JsonFlags.depth ⟨true, false, 2, true, false⟩ = 2 ∧
    JsonFlags.inString ⟨true, false, 1, true, false⟩ = true ∧
    (∃ n, n ≤ ("[1]" : String).length ∧
      ∀ m, m ≤ ("[1]" : String).length →
        (finishedAfter "[1]" m = true ↔ n ≤ m)) ∧
    ((⟨true, true, 0, false, false⟩ : JsonFlags).finished = true ↔
      (⟨true, true, 0, false, false⟩ : JsonFlags).started = true ∧
      (⟨true, true, 0, false, false⟩ : JsonFlags).depth = 0) := by
  refine ⟨?_, ?_, ?_, ?_⟩
  · exact (claim3_scan_invariants.1 ⟨true, false, 2, true, true⟩ ']'
      ⟨true, false, 2, true, false⟩ [']'] (by unfold GoodFlags; decide) (by decide)
      (by rfl)).trans (by decide)
  · exact claim3_scan_invariants.2.1 ⟨true, false, 1, true, true⟩ '"'
      ⟨true, false, 1, true, false⟩ ['"'] (by unfold GoodFlags; decide) (by decide)
      (by decide) (by rfl)
  · exact claim3_scan_invariants.2.2.1 "[1]" "1" (by rfl)
  · exact claim3_scan_invariants.2.2.2.1 "[1]" "1" (by rfl) 3
      ⟨true, true, 0, false, false⟩ ['1'] (by decide) (by rfl)

/-- Claim C1 (code bug exhibited): the shared `outputHasContent` flag is set
by any non-empty buffer content, whitespace included — not by array
elements.  The input `"[ ]"` is an empty JSON array (zero elements), yet
its whitespace content makes the merger emit a comma before the next
input's first element, producing `"[ ,1]"`, which is not valid JSON. -/
theorem claim1_comma_despite_no_elements :
    contentOf "[ ]" = .ok " " ∧
    (mergeJson none ["[ ]", "[1]"]).error = none ∧
    (mergeJson none ["[ ]", "[1]"]).output = "[ ,1]" := by
  refine ⟨rfl, rfl, rfl⟩

/-- Claim C2: on well-formed inputs the merged output is exactly one
leading `[` and one trailing `]` wrapping the comma-joined contents of all
inputs; a `[]` input contributes nothing; merging `["[]", "[1,2]"]` yields
exactly `"[1,2]"`. -/
theorem claim2_single_wrapper {l cs : List String} (hne : l ≠ [])
    (h : contentsOf l = .ok cs) :
    (mergeJson none l).error = none ∧
    (mergeJson none l).output =
      "[" ++ String.intercalate "," (cs.filter (fun c => c ≠ "")) ++ "]" ∧
    contentOf "[]" = .ok "" ∧
    (mergeJson none ["[]", "[1,2]"]).output = "[1,2]" := by
  rw [mergeJson_ok_spec hne h]
  refine ⟨rfl, ?_, rfl, rfl⟩
  rw [← bodyFrom_false_intercalate]

/-- Closed witness for C2 at the concrete input `["[]", "[1,2]"]`. -/
theorem claim2_single_wrapper_witness :
    (mergeJson none ["[]", "[1,2]"]).error = none ∧
    (mergeJson none ["[]", "[1,2]"]).output =
      "[" ++ String.intercalate ","
        ((["", "1,2"]).filter (fun c => c ≠ "")) ++ "]" ∧
    contentOf "[]" = .ok "" ∧
    (mergeJson none ["[]", "[1,2]"]).output = "[1,2]" :=
  @claim2_single_wrapper ["[]", "[1,2]"] ["", "1,2"] (by decide) rfl

/-! ## Tracker lemmas (C9) -/

theorem snapLE_refl (a : ProgressSnapshot) : snapLE a a :=
  ⟨le_refl _, le_refl _⟩

theorem snapLE_trans {a b c : ProgressSnapshot} (h1 : snapLE a b)
    (h2 : snapLE b c) : snapLE a c :=
  ⟨le_trans h1.1 h2.1, le_trans h1.2 h2.2⟩

theorem chain_snapLE_of_le {a b : ProgressSnapshot} (hab : snapLE a b)
    {l : List ProgressSnapshot} (h : List.Chain snapLE b l) :
    List.Chain snapLE a l := by
  cases h with
  | nil => exact List.Chain.nil
  | cons hbc hc => exact List.Chain.cons (snapLE_trans hab hbc) hc

theorem trackerAdd_spec (interval : Nat) (tr : TrackerState) (r w now : Nat) :
    (trackerAdd interval tr r w now).1.inputedBytes = tr.inputedBytes + r ∧
    (trackerAdd interval tr r w now).1.mergedBytes = tr.mergedBytes + w ∧
    (trackerAdd interval tr r w now).1.inputIndex = tr.inputIndex ∧
    (trackerAdd interval tr r w now).1.totalInputs = tr.totalInputs ∧
    (((trackerAdd interval tr r w now).2 = none ∧
        (trackerAdd interval tr r w now).1.lastEmitAt = tr.lastEmitAt) ∨
      ((trackerAdd interval tr r w now).2 =
          some (now, snapOf (trackerAdd interval tr r w now).1) ∧
        (trackerAdd interval tr r w now).1.lastEmitAt = some now ∧
        ∀ t, 0 < interval → tr.lastEmitAt = some t → t + interval ≤ now)) := by
  unfold trackerAdd
  dsimp only
  split
  case isTrue h =>
    refine ⟨rfl, rfl, rfl, rfl, Or.inr ⟨rfl, rfl, ?_⟩⟩
    intro t hI ht
    rw [ht] at h
    simp at h
    omega
  case isFalse h =>
    exact ⟨rfl, rfl, rfl, rfl, Or.inl ⟨rfl, rfl⟩⟩

theorem runTracker_nil (interval : Nat) (tr : TrackerState) :
    runTracker interval tr [] = (tr, []) := rfl

theorem runTracker_next (interval : Nat) (tr : TrackerState)
    (ops : List TrackerOp) :
    runTracker interval tr (.next :: ops) =
      runTracker interval { tr with inputIndex := tr.inputIndex + 1 } ops := rfl

theorem runTracker_add (interval : Nat) (tr : TrackerState) (r w now : Nat)
    (ops : List TrackerOp) :
    runTracker interval tr (.add r w now :: ops) =
      ((runTracker interval (trackerAdd interval tr r w now).1 ops).1,
        (trackerAdd interval tr r w now).2.toList ++
          (runTracker interval (trackerAdd interval tr r w now).1 ops).2) := rfl

theorem runTracker_totals (interval : Nat) :
    ∀ (ops : List TrackerOp) (tr : TrackerState),
      (runTracker interval tr ops).1.inputedBytes =
        tr.inputedBytes + opsReads ops ∧
      (runTracker interval tr ops).1.mergedBytes =
        tr.mergedBytes + opsWrites ops ∧
      (runTracker interval tr ops).1.totalInputs = tr.totalInputs := by
  intro ops
  induction ops with
  | nil =>
    intro tr
    rw [runTracker_nil]
    simp [opsReads, opsWrites]
  | cons op ops ih =>
    intro tr
    cases op with
    | next =>
      rw [runTracker_next]
      have h := ih { tr with inputIndex := tr.inputIndex + 1 }
      simpa [opsReads, opsWrites] using h
    | add r w now =>
      rw [runTracker_add]
      obtain ⟨h1, h2, _, h4, _⟩ := trackerAdd_spec interval tr r w now
      obtain ⟨g1, g2, g3⟩ := ih (trackerAdd interval tr r w now).1
      dsimp only
      refine ⟨?_, ?_, ?_⟩
      · rw [g1, h1]
        simp only [opsReads]
        omega
      · rw [g2, h2]
        simp only [opsWrites]
        omega
      · rw [g3, h4]

theorem runTracker_mono (interval : Nat) :
    ∀ (ops : List TrackerOp) (tr : TrackerState),
      List.Chain snapLE (snapOf tr)
        (((runTracker interval tr ops).2.map Prod.snd) ++
          [snapOf (runTracker interval tr ops).1]) := by
  intro ops
  induction ops with
  | nil =>
    intro tr
    rw [runTracker_nil]
    exact List.Chain.cons (snapLE_refl _) List.Chain.nil
  | cons op ops ih =>
    intro tr
    cases op with
    | next =>
      rw [runTracker_next]
      refine chain_snapLE_of_le ?_ (ih { tr with inputIndex := tr.inputIndex + 1 })
      exact ⟨le_refl _, le_refl _⟩
    | add r w now =>
      rw [runTracker_add]
      dsimp only
      obtain ⟨h1, h2, _, _, hcase⟩ := trackerAdd_spec interval tr r w now
      have hle : snapLE (snapOf tr)
          (snapOf (trackerAdd interval tr r w now).1) := by
        refine ⟨?_, ?_⟩
        · show tr.inputedBytes ≤ (trackerAdd interval tr r w now).1.inputedBytes
          rw [h1]
          omega
        · show tr.mergedBytes ≤ (trackerAdd interval tr r w now).1.mergedBytes
          rw [h2]
          omega
      have h := ih (trackerAdd interval tr r w now).1
      cases hcase with
      | inl hc =>
        rw [hc.1]
        simpa using chain_snapLE_of_le hle h
      | inr hc =>
        rw [hc.1]
        simp only [Option.toList_some, List.singleton_append, List.map_cons]
        exact List.Chain.cons hle h

theorem runTracker_spacing (interval : Nat) (hI : 0 < interval) :
    ∀ (ops : List TrackerOp) (tr : TrackerState),
      List.Chain' (fun a b : Nat => a + interval ≤ b)
        (((runTracker interval tr ops).2).map Prod.fst) ∧
      ∀ t, tr.lastEmitAt = some t →
        List.Chain (fun a b : Nat => a + interval ≤ b) t
          (((runTracker interval tr ops).2).map Prod.fst) := by
  intro ops
  induction ops with
  | nil =>
    intro tr
    rw [runTracker_nil]
    exact ⟨List.chain'_nil, fun t _ => List.Chain.nil⟩
  | cons op ops ih =>
    intro tr
    cases op with
    | next =>
      rw [runTracker_next]
      have h := ih { tr with inputIndex := tr.inputIndex + 1 }
      exact ⟨h.1, fun t ht => h.2 t ht⟩
    | add r w now =>
      rw [runTracker_add]
      dsimp only
      obtain ⟨_, _, _, _, hcase⟩ := trackerAdd_spec interval tr r w now
      have h := ih (trackerAdd interval tr r w now).1
      cases hcase with
      | inl hc =>
        rw [hc.1]
        simp only [Option.toList_none, List.nil_append]
        exact ⟨h.1, fun t ht => h.2 t (by rw [hc.2, ht])⟩
      | inr hc =>
        rw [hc.1]
        simp only [Option.toList_some, List.singleton_append, List.map_cons]
        have hnow := h.2 now hc.2.1
        refine ⟨hnow, fun t ht => List.Chain.cons ?_ hnow⟩
        exact hc.2.2 t hI ht

/-- Claim C9: across one merge call the progress counters reported to the
callback are monotonically non-decreasing, the unconditional completion
emission included; under a positive throttle interval consecutive throttled
emissions are at least one interval apart in time; the completion emission
reports totals equal to the bytes accumulated by every addBytes interaction
of the call; and the merge calls feed the tracker faithfully: a successful
mergeJson counts reads equal to the summed byte length of its inputs and
writes equal to the byte length of its output, and mergeCsv likewise. -/
theorem claim9_progress_reporting :
    ∀ (interval tot : Nat) (ops : List TrackerOp),
      List.Chain' snapLE
        (((runTracker interval (trackerInit tot) ops).2.map Prod.snd) ++
          [trackerFlush (runTracker interval (trackerInit tot) ops).1]) ∧
      (0 < interval →
        List.Chain' (fun a b : Nat => a + interval ≤ b)
          (((runTracker interval (trackerInit tot) ops).2).map Prod.fst)) ∧
      (trackerFlush
          (runTracker interval (trackerInit tot) ops).1).inputedBytes =
        opsReads ops ∧
      (trackerFlush
          (runTracker interval (trackerInit tot) ops).1).mergedBytes =
        opsWrites ops ∧
      (∀ l cs : List String, l ≠ [] → contentsOf l = .ok cs →
        (mergeJson none l).reads = (l.map byteLength).sum ∧
        (mergeJson none l).writes = byteLength (mergeJson none l).output) ∧
      (∀ l : List String,
        (mergeCsv l).reads = (l.map byteLength).sum ∧
        (mergeCsv l).writes = byteLength (mergeCsv l).output) := by
  intro interval tot ops
  refine ⟨?_, ?_, ?_, ?_, ?_, ?_⟩
  · have h : List.Chain' snapLE (snapOf (trackerInit tot) ::
        (((runTracker interval (trackerInit tot) ops).2.map Prod.snd) ++
          [trackerFlush (runTracker interval (trackerInit tot) ops).1])) :=
      runTracker_mono interval ops (trackerInit tot)
    exact h.tail
  · intro hI
    exact (runTracker_spacing interval hI ops (trackerInit tot)).1
  · have h := (runTracker_totals interval ops (trackerInit tot)).1
    simpa [trackerFlush, snapOf, trackerInit] using h
  · have h := (runTracker_totals interval ops (trackerInit tot)).2.1
    simpa [trackerFlush, snapOf, trackerInit] using h
  · intro l cs hne hok
    rw [mergeJson_ok_spec hne hok]
    refine ⟨rfl, ?_⟩
    dsimp only
    rw [byteLength_append, byteLength_append]
    have hl : byteLength "[" = 1 := by decide
    have hr : byteLength "]" = 1 := by decide
    rw [hl, hr]
  · exact fun l => mergeCsv_accounting l

end MergeStreams
